import Mathlib

/-!
# The xv6 physical page allocator with reference counts (kernel/kalloc.c)

A shallow embedding of `kernel/kalloc.c`: the reference-count table
`ref_count`, the intrusive free list `kmem.freelist` whose links live in the
first machine word of every free page, and the routines `kinit`, `freerange`,
`kfree`, `kalloc`, `inc_ref`, `dec_ref` and `get_pa_idx`.

Modelling conventions.
* Addresses are natural numbers; `uint64` and pointer arithmetic that can
  wrap is written with an explicit `% 2 ^ 64`.
* Physical memory is a map from byte addresses to bytes; a pointer stored in
  memory occupies eight bytes, least significant byte first (RISC-V).
* The C `int` counters are integers, and the sums `old + 1` and `old - 1` are
  taken in 32-bit two's complement (`wrap32`), as the compiled code does: the
  code never checks a count against a bound.
* The table `ref_count` is a map from indices to counters; `kinit` clears the
  indices below `NUM_PYS_PAGES`.
* `panic` never returns: a routine that panics yields `Outcome.panicked`
  together with the state in which `panic` was called.
* The loop of `freerange` need not end when its pointer wraps; it is run for
  `ROUNDS` rounds, more than the number of values the pointer can take, and
  `Outcome.running` says that it was still going then.
* The spinlock calls bracket code that is executed here by one hart only, so
  `initlock`, `acquire` and `release` leave the modelled state unchanged.
* `inc_ref` and `dec_ref` take no lock. A call that runs on its own is the
  function `inc_ref` or `dec_ref`; calls that overlap are the machine `Runs`,
  in which every call takes its read of the slot and its `cas` as two atomic
  steps, in any order with the steps of the other calls.
-/

namespace Kalloc

/-! ## Constants and layout -/

/-- Bytes per page (`PGSIZE`). -/
def PGSIZE : Nat := 4096

/-- The modulus of `uint64` arithmetic. -/
def U64 : Nat := 2 ^ 64

/-- The platform constants the allocator consumes: `KERNBASE` and `PHYSTOP`
come from `memlayout.h`, and `kernel_end` is the linker symbol `end`, the first
address after the kernel image. -/
structure Layout where
  KERNBASE : Nat
  PHYSTOP : Nat
  kernel_end : Nat

/-- Subtraction of `uint64` values. -/
def sub64 (a b : Nat) : Nat := (a + U64 - b % U64) % U64

/-- The macro `NUM_PYS_PAGES`: `((PHYSTOP - KERNBASE) / PGSIZE)`. -/
def NUM_PYS_PAGES (L : Layout) : Nat := sub64 L.PHYSTOP L.KERNBASE / PGSIZE

/-- Modelled from the spec: the macro `PGROUNDUP` of `riscv.h`, which is not
among the sources; it rounds a `uint64` up to the next page boundary,
`(sz + PGSIZE - 1) & ~(PGSIZE - 1)`. -/
def PGROUNDUP (sz : Nat) : Nat := (sz + PGSIZE - 1) % U64 / PGSIZE * PGSIZE

/-! ## State -/

/-- The allocator state: the table `ref_count` (by index), the head pointer
`kmem.freelist` (`0` is the null pointer) and physical memory (by byte). -/
structure State where
  ref_count : Nat → Int
  freelist : Nat
  mem : Nat → Nat

/-- The result of a routine that may call `panic` or loop: it returned, it
called `panic`, or it was still running when its rounds were used up. -/
inductive Outcome where
  | done (s : State)
  | panicked (s : State)
  | running (s : State)

/-- The state at kernel entry: globals are zero-initialised, memory holds
whatever the machine left there. -/
def boot (m : Nat → Nat) : State :=
  { ref_count := fun _ => 0, freelist := 0, mem := m }

/-! ## Memory primitives -/

/-- Modelled from the spec: `memset` of `string.c`, which is not among the
sources; it overwrites `n` bytes starting at `dst` with the byte `c`. -/
def memset (m : Nat → Nat) (dst c n : Nat) : Nat → Nat :=
  fun a => if dst ≤ a ∧ a < dst + n then c % 256 else m a

/-- Read of a pointer-sized field at address `a` (as in `r->next`). -/
def loadPtr (m : Nat → Nat) (a : Nat) : Nat :=
  m a % 256 + m (a + 1) % 256 * 256 ^ 1 + m (a + 2) % 256 * 256 ^ 2
    + m (a + 3) % 256 * 256 ^ 3 + m (a + 4) % 256 * 256 ^ 4
    + m (a + 5) % 256 * 256 ^ 5 + m (a + 6) % 256 * 256 ^ 6
    + m (a + 7) % 256 * 256 ^ 7

/-- Write of a pointer-sized field at address `a` (as in `r->next = v`). -/
def storePtr (m : Nat → Nat) (a v : Nat) : Nat → Nat :=
  fun x => if a ≤ x ∧ x < a + 8 then v / 256 ^ (x - a) % 256 else m x

/-! ## The reference-count table -/

/-- The largest value of a C `int`. -/
def INT_MAX : Int := 2147483647

/-- The smallest value of a C `int`. -/
def INT_MIN : Int := -2147483648

/-- The value a 32-bit `int` takes for the exact result `x`: two's complement
wrap-around, which is what `old + 1` and `old - 1` compile to. -/
def wrap32 (x : Int) : Int := (x + 2147483648) % 4294967296 - 2147483648

/-- The function `get_pa_idx`: `((pa - KERNBASE) / PGSIZE)` on `uint64`. -/
def get_pa_idx (L : Layout) (pa : Nat) : Nat := sub64 pa L.KERNBASE / PGSIZE

/-- Modelled from the spec: the platform compare-and-swap `cas`, which is not
among the sources. Without interference it stores `newval` and returns `0`
when the slot holds `expected`, and returns `1` leaving the slot alone
otherwise. -/
def cas (t : Nat → Int) (i : Nat) (expected newval : Int) : (Nat → Int) × Nat :=
  if t i = expected then (Function.update t i newval, 0) else (t, 1)

/-- The function `inc_ref`: read the slot, try to swap in `old + 1`, repeat
while `cas` reports failure (a non-zero result), return `old + 1`; the sum is
an `int` sum. The retry is never taken here, because nothing changes the slot
between the read and the `cas`. -/
def inc_ref (L : Layout) (s : State) (pa : Nat) : State × Int :=
  let old := s.ref_count (get_pa_idx L pa)
  let r := cas s.ref_count (get_pa_idx L pa) old (wrap32 (old + 1))
  if r.2 ≠ 0 then inc_ref L { s with ref_count := r.1 } pa
  else ({ s with ref_count := r.1 }, wrap32 (old + 1))
termination_by 0
decreasing_by
  rename_i h
  simp +zetaDelta [cas] at h

/-- The function `dec_ref`: as `inc_ref`, with `old - 1`. -/
def dec_ref (L : Layout) (s : State) (pa : Nat) : State × Int :=
  let old := s.ref_count (get_pa_idx L pa)
  let r := cas s.ref_count (get_pa_idx L pa) old (wrap32 (old - 1))
  if r.2 ≠ 0 then dec_ref L { s with ref_count := r.1 } pa
  else ({ s with ref_count := r.1 }, wrap32 (old - 1))
termination_by 0
decreasing_by
  rename_i h
  simp +zetaDelta [cas] at h

/-! ## The free-list pool -/

/-- The function `kfree`: panic on a misaligned or out-of-range address;
otherwise drop one reference and, unless references remain, reset the slot,
fill the page with the byte `1` and push it on the free list. -/
def kfree (L : Layout) (s : State) (pa : Nat) : Outcome :=
  if pa % PGSIZE ≠ 0 ∨ pa < L.kernel_end ∨ pa ≥ L.PHYSTOP then
    Outcome.panicked s
  else
    let d := dec_ref L s pa
    if d.2 > 0 then
      Outcome.done d.1
    else
      let s1 : State :=
        { d.1 with ref_count := Function.update d.1.ref_count (get_pa_idx L pa) 0 }
      let s2 : State := { s1 with mem := memset s1.mem pa 1 PGSIZE }
      let s3 : State := { s2 with mem := storePtr s2.mem pa s2.freelist }
      Outcome.done { s3 with freelist := pa }

/-- The function `kalloc`: pop the head of the free list, if any, stamp its
count to `1`, fill the page with the byte `5`, and return its address; the
result `0` means that no page is free. -/
def kalloc (L : Layout) (s : State) : State × Nat :=
  let r := s.freelist
  let s1 : State :=
    if r ≠ 0 then
      { s with ref_count := Function.update s.ref_count (get_pa_idx L r) 1,
               freelist := loadPtr s.mem r }
    else s
  let s2 : State :=
    if r ≠ 0 then { s1 with mem := memset s1.mem r 5 PGSIZE } else s1
  (s2, r)

/-! ## Initialisation -/

/-- The number of rounds given to the loop of `freerange`: one more than the
number of values its pointer can take, so a loop that has not ended by then
never ends. -/
@[irreducible]
def ROUNDS : Nat := U64 / PGSIZE + 1

/-- The loop of `freerange`, run for at most `n` rounds: release `p`,
`p + PGSIZE`, ... while `p + PGSIZE <= pa_end`, the pointer sum being taken
modulo `2 ^ 64`; a panic in `kfree` ends the run. -/
def freerange_loop (L : Layout) (pa_end : Nat) : Nat → State → Nat → Outcome
  | 0, s, _ => Outcome.running s
  | n + 1, s, p =>
    if (p + PGSIZE) % U64 ≤ pa_end then
      match kfree L s p with
      | Outcome.done s1 => freerange_loop L pa_end n s1 ((p + PGSIZE) % U64)
      | Outcome.panicked s1 => Outcome.panicked s1
      | Outcome.running s1 => Outcome.running s1
    else Outcome.done s

/-- The function `freerange`. -/
def freerange (L : Layout) (s : State) (pa_start pa_end : Nat) : Outcome :=
  freerange_loop L pa_end ROUNDS s (PGROUNDUP pa_start)

/-- The function `kinit`: clear the `NUM_PYS_PAGES` slots of the table and
release every whole page between `end` and `PHYSTOP`. -/
def kinit (L : Layout) (s : State) : Outcome :=
  freerange L
    { s with ref_count := fun i => if i < NUM_PYS_PAGES L then 0 else s.ref_count i }
    L.kernel_end L.PHYSTOP

/-! ## The free chain read off the state -/

/-- The pages linked from pointer `p` in memory `m` are exactly `l`: every
entry is non-null, its first word points to the next entry, and the first
word of the last entry is null. -/
def Chain (m : Nat → Nat) : Nat → List Nat → Prop
  | p, [] => p = 0
  | p, h :: t => p = h ∧ h ≠ 0 ∧ Chain m (loadPtr m h) t

instance Chain.instDecidable (m : Nat → Nat) :
    ∀ (p : Nat) (l : List Nat), Decidable (Chain m p l)
  | p, [] => inferInstanceAs (Decidable (p = 0))
  | p, h :: t =>
    have : Decidable (Chain m (loadPtr m h) t) := Chain.instDecidable m _ t
    inferInstanceAs (Decidable (p = h ∧ h ≠ 0 ∧ Chain m (loadPtr m h) t))

/-- The free chain of state `s` is the list `l` of page-aligned 64-bit
addresses, starting at `kmem.freelist`. -/
def FreeChain (s : State) (l : List Nat) : Prop :=
  Chain s.mem s.freelist l ∧ ∀ a ∈ l, a % PGSIZE = 0 ∧ a < U64

instance (s : State) (l : List Nat) : Decidable (FreeChain s l) := by
  unfold FreeChain; infer_instance

/-- The walk along the free list from pointer `p`, at most `n` links deep. -/
def walk (m : Nat → Nat) : Nat → Nat → List Nat
  | 0, _ => []
  | n + 1, p => if p = 0 then [] else p :: walk m n (loadPtr m p)

/-- The address passes the validation at the start of `kfree`. -/
def valid_page (L : Layout) (pa : Nat) : Prop :=
  pa % PGSIZE = 0 ∧ L.kernel_end ≤ pa ∧ pa < L.PHYSTOP

instance (L : Layout) (pa : Nat) : Decidable (valid_page L pa) := by
  unfold valid_page; infer_instance

/-- Sanity of the platform constants: the kernel image ends at a non-null
address at or below `PHYSTOP`, and `PHYSTOP` lies at least one page below the
top of the 64-bit address space (so rounding `end` up cannot wrap). -/
def Layout.WF (L : Layout) : Prop :=
  0 < L.kernel_end ∧ L.kernel_end ≤ L.PHYSTOP ∧ L.PHYSTOP + PGSIZE ≤ U64

instance (L : Layout) : Decidable L.WF := by
  unfold Layout.WF; infer_instance

/-- The `n` consecutive page addresses `p`, `p + PGSIZE`, ... -/
def pages (p : Nat) : Nat → List Nat
  | 0 => []
  | n + 1 => p :: pages (p + PGSIZE) n

/-- The number of whole pages between `end` rounded up and `PHYSTOP`. -/
def whole_pages (L : Layout) : Nat := (L.PHYSTOP - PGROUNDUP L.kernel_end) / PGSIZE

/-- The whole pages inside the managed range `[end, PHYSTOP)`, as a set. -/
def managed_pages (L : Layout) : Finset Nat :=
  (Finset.range L.PHYSTOP).filter
    (fun a => a % PGSIZE = 0 ∧ L.kernel_end ≤ a ∧ a + PGSIZE ≤ L.PHYSTOP)

/-- The whole pages of the managed range, highest address first: the order in
which `kinit` leaves them on the free list. -/
def free_pages (L : Layout) : List Nat :=
  (pages (PGROUNDUP L.kernel_end) (whole_pages L)).reverse

/-- The call `kalloc()` made `n` times in a row: the final state and the
addresses returned, first call first. -/
def kalloc_n (L : Layout) : Nat → State → State × List Nat
  | 0, s => (s, [])
  | n + 1, s => ((kalloc_n L n (kalloc L s).1).1, (kalloc L s).2 :: (kalloc_n L n (kalloc L s).1).2)

/-- States reachable after `kinit()` by calls that respect the allocator's
contract: `kalloc()` at any time; `inc_ref`, `dec_ref` and `kfree` on an
address whose page is referenced (its count is at least `1`), where the
`kfree` call returns. -/
inductive Reachable (L : Layout) : State → Prop
  | init (m : Nat → Nat) (s : State) :
      kinit L (boot m) = Outcome.done s → Reachable L s
  | kalloc (s : State) : Reachable L s → Reachable L (kalloc L s).1
  | inc_ref (s : State) (pa : Nat) :
      Reachable L s → 1 ≤ s.ref_count (get_pa_idx L pa) → Reachable L (inc_ref L s pa).1
  | dec_ref (s : State) (pa : Nat) :
      Reachable L s → 1 ≤ s.ref_count (get_pa_idx L pa) → Reachable L (dec_ref L s pa).1
  | kfree (s t : State) (pa : Nat) :
      Reachable L s → 1 ≤ s.ref_count (get_pa_idx L pa) →
      kfree L s pa = Outcome.done t → Reachable L t

/-- The free list of `s` is a chain of pages that pass the validation of
`kfree` and whose counts are not positive. -/
def PoolInv (L : Layout) (s : State) : Prop :=
  ∃ l, FreeChain s l ∧ (∀ a ∈ l, valid_page L a) ∧
    ∀ a ∈ l, s.ref_count (get_pa_idx L a) ≤ 0

/-- The address is a page of the managed range: page-aligned, at or above
`end`, and with its whole page below `PHYSTOP`. -/
def managed_page (L : Layout) (a : Nat) : Prop :=
  a % PGSIZE = 0 ∧ L.kernel_end ≤ a ∧ a + PGSIZE ≤ L.PHYSTOP

instance (L : Layout) (a : Nat) : Decidable (managed_page L a) := by
  unfold managed_page; infer_instance

/-- States reached from `kinit()` by any sequence of `kalloc()`, of `inc_ref`
on an address whose count is at least `1`, and of `kfree` on an address whose
count is at least `1` (the call returns). -/
inductive Lifecycle (L : Layout) : State → Prop
  | init (m : Nat → Nat) (s : State) :
      kinit L (boot m) = Outcome.done s → Lifecycle L s
  | kalloc (s : State) : Lifecycle L s → Lifecycle L (kalloc L s).1
  | inc_ref (s : State) (pa : Nat) :
      Lifecycle L s → 1 ≤ s.ref_count (get_pa_idx L pa) → Lifecycle L (inc_ref L s pa).1
  | kfree (s t : State) (pa : Nat) :
      Lifecycle L s → 1 ≤ s.ref_count (get_pa_idx L pa) →
      kfree L s pa = Outcome.done t → Lifecycle L t

/-- As `Lifecycle`, with `inc_ref` only on a count below `INT_MAX`, so that no
count overflows. -/
inductive BoundedLifecycle (L : Layout) : State → Prop
  | init (m : Nat → Nat) (s : State) :
      kinit L (boot m) = Outcome.done s → BoundedLifecycle L s
  | kalloc (s : State) : BoundedLifecycle L s → BoundedLifecycle L (kalloc L s).1
  | inc_ref (s : State) (pa : Nat) :
      BoundedLifecycle L s → 1 ≤ s.ref_count (get_pa_idx L pa) →
      s.ref_count (get_pa_idx L pa) < INT_MAX → BoundedLifecycle L (inc_ref L s pa).1
  | kfree (s t : State) (pa : Nat) :
      BoundedLifecycle L s → 1 ≤ s.ref_count (get_pa_idx L pa) →
      kfree L s pa = Outcome.done t → BoundedLifecycle L t

/-- The page life cycle seen on the chain `l` and the table of `s`: the chain
holds exactly the managed pages whose count is `0`, every slot holds an
`int`, and a positive count belongs to a managed page. -/
def LifeInv (L : Layout) (s : State) (l : List Nat) : Prop :=
  FreeChain s l ∧
    (∀ a, a ∈ l ↔ managed_page L a ∧ s.ref_count (get_pa_idx L a) = 0) ∧
    (∀ i, INT_MIN ≤ s.ref_count i ∧ s.ref_count i ≤ INT_MAX) ∧
    ∀ i, 0 < s.ref_count i → ∃ q, managed_page L q ∧ get_pa_idx L q = i

/-- The call `inc_ref(pa)` made `n` times in a row. -/
def inc_ref_n (L : Layout) : Nat → State → Nat → State
  | 0, s, _ => s
  | n + 1, s, pa => inc_ref_n L n (inc_ref L s pa).1 pa

/-! ## Calls of `inc_ref` and `dec_ref` in flight together -/

/-- Where a call of `inc_ref` or `dec_ref` stands: about to read the slot;
holding the value `old` it read, about to call `cas`; or returned with result
`r`, `stored` being what the slot held right after its last `cas`. -/
inductive Phase where
  | reading
  | swapping (old : Int)
  | returned (stored r : Int)

/-- A call in flight: `inc` tells `inc_ref` from `dec_ref`. -/
structure Call where
  inc : Bool
  phase : Phase

/-- A call that has just been made. -/
def Call.start (inc : Bool) : Call := { inc := inc, phase := Phase.reading }

/-- The value the call tries to swap in: `old + 1` or `old - 1`. -/
def Call.newval (c : Call) (old : Int) : Int :=
  if c.inc then wrap32 (old + 1) else wrap32 (old - 1)

/-- What the call adds to the count once it has returned. -/
def Call.gain (c : Call) : Int :=
  match c.phase with
  | Phase.returned _ _ => if c.inc then 1 else -1
  | _ => 0

/-- The call has returned. -/
def Call.finished (c : Call) : Prop :=
  match c.phase with
  | Phase.returned _ _ => True
  | _ => False

/-- One atomic step of a call on slot `i` of the table `t`: the read
`old = ref_count[idx]`, or the `cas` followed by the loop test, which sends
the call back to the read when `cas` reports failure and lets it return
`old + 1` (`old - 1`) otherwise. -/
def Call.step (i : Nat) (t : Nat → Int) (c : Call) : (Nat → Int) × Call :=
  match c.phase with
  | Phase.reading => (t, { c with phase := Phase.swapping (t i) })
  | Phase.swapping old =>
    if (cas t i old (c.newval old)).2 ≠ 0 then
      ((cas t i old (c.newval old)).1, { c with phase := Phase.reading })
    else
      ((cas t i old (c.newval old)).1,
        { c with phase := Phase.returned ((cas t i old (c.newval old)).1 i) (c.newval old) })
  | Phase.returned _ _ => (t, c)

/-- The sum of what the returned calls add to the count. -/
def gain : List Call → Int
  | [] => 0
  | c :: cs => c.gain + gain cs

/-- One step of the machine: any one of the calls in flight on slot `i` takes
its next atomic step on the shared table. -/
inductive Interleave (i : Nat) : (Nat → Int) × List Call → (Nat → Int) × List Call → Prop
  | head (t : Nat → Int) (c : Call) (cs : List Call) :
      Interleave i (t, c :: cs) ((c.step i t).1, (c.step i t).2 :: cs)
  | tail (t u : Nat → Int) (c : Call) (cs ds : List Call) :
      Interleave i (t, cs) (u, ds) → Interleave i (t, c :: cs) (u, c :: ds)

/-- Any number of steps of the machine, in any order of the calls. -/
inductive Runs (i : Nat) : (Nat → Int) × List Call → (Nat → Int) × List Call → Prop
  | refl (x : (Nat → Int) × List Call) : Runs i x x
  | step (x y z : (Nat → Int) × List Call) : Runs i x y → Interleave i y z → Runs i x z

/-- The free list of `s` is a null-terminated chain of pages each of which
passes the validation of `kfree`. -/
def ChainValid (L : Layout) (s : State) : Prop :=
  ∃ l, FreeChain s l ∧ ∀ a ∈ l, valid_page L a

/-- The loop of `freerange` run together with a record of the calls it makes:
the outcome of the loop and the addresses passed to `kfree`, first call
first. A call that panics is the last one. -/
def freerange_loop_calls (L : Layout) (pa_end : Nat) : Nat → State → Nat → Outcome × List Nat
  | 0, s, _ => (Outcome.running s, [])
  | n + 1, s, p =>
    if (p + PGSIZE) % U64 ≤ pa_end then
      match kfree L s p with
      | Outcome.done s1 =>
        ((freerange_loop_calls L pa_end n s1 ((p + PGSIZE) % U64)).1,
          p :: (freerange_loop_calls L pa_end n s1 ((p + PGSIZE) % U64)).2)
      | Outcome.panicked s1 => (Outcome.panicked s1, [p])
      | Outcome.running s1 => (Outcome.running s1, [p])
    else (Outcome.done s, [])

/-- The whole pages between `pa_start` rounded up and `pa_end`, in ascending
order: the addresses `r + PGSIZE * k` with `r + PGSIZE * (k + 1) <= pa_end`. -/
def freerange_pages (pa_start pa_end : Nat) : List Nat :=
  pages (PGROUNDUP pa_start) ((pa_end - PGROUNDUP pa_start) / PGSIZE)

/-- The function `freerange` with the record of its calls of `kfree`. -/
def freerange_calls (L : Layout) (s : State) (pa_start pa_end : Nat) : Outcome × List Nat :=
  freerange_loop_calls L pa_end ROUNDS s (PGROUNDUP pa_start)

/-- The entries of a list of addresses up to and including the first one that
fails the validation of `kfree`. -/
def through_first_invalid (L : Layout) : List Nat → List Nat
  | [] => []
  | a :: t => if valid_page L a then a :: through_first_invalid L t else [a]

/-! ## A small machine for examples -/

/-- A layout with two whole pages, `8192` and `12288`, above a kernel image
that ends in the middle of a page. -/
def small : Layout := { KERNBASE := 4096, PHYSTOP := 16384, kernel_end := 5000 }

/-- A layout whose managed range takes in the last page of the address
space: `end` is `2^64 - 8192` and `PHYSTOP` is `2^64 - 1`. -/
def top : Layout :=
  { KERNBASE := 0, PHYSTOP := 18446744073709551615, kernel_end := 18446744073709543424 }

/-- The state `kinit` reaches on `small` from zeroed memory. -/
def small_init : State :=
  { ref_count := fun _ => 0,
    freelist := 12288,
    mem := storePtr (memset (storePtr (memset (fun _ => 0) 8192 1 PGSIZE) 8192 0) 12288 1 PGSIZE)
      12288 8192 }

/-- A state of `small` in which page `8192` has three owners. -/
def small_shared : State :=
  { ref_count := Function.update (fun _ => 0) (get_pa_idx small 8192) 3,
    freelist := 12288,
    mem := storePtr (fun _ => 0) 12288 0 }

/-- The state of `small` after `kinit()` and a second release of the free page
`8192`: the list runs `8192`, `12288`, `8192`, ... without end. -/
def small_double_free : State :=
  { ref_count := Function.update small_init.ref_count (get_pa_idx small 8192) 0,
    freelist := 8192,
    mem := storePtr (memset small_init.mem 8192 1 PGSIZE) 8192 small_init.freelist }

/-- The state of `small` after `kinit()` and `inc_ref(8192)` on the free page
`8192`: the page is on the free list and has count `1`. -/
def small_misused : State :=
  { small_init with
    ref_count := Function.update small_init.ref_count (get_pa_idx small 8192)
      (small_init.ref_count (get_pa_idx small 8192) + 1) }

/-- A state of `small` in which page `8192` has one owner and page `12288` is
the only free page. -/
def small_owned : State :=
  { ref_count := Function.update (fun _ => 0) (get_pa_idx small 8192) 1,
    freelist := 12288,
    mem := storePtr (fun _ => 0) 12288 0 }

/-- A state of `small` in which the slot of page `8192` holds `v` and page
`12288` is the only free page. -/
def small_counted (v : Int) : State :=
  { ref_count := Function.update (fun _ => 0) (get_pa_idx small 8192) v,
    freelist := 12288,
    mem := storePtr (fun _ => 0) 12288 0 }

/-- The byte pattern `0x0505050505050505` read as a pointer. -/
def FILL5_PTR : Nat := 361700864190383365

/-! ## Memory and chain lemmas -/

theorem loadPtr_congr (m1 m2 : Nat → Nat) (a : Nat)
    (h : ∀ x, a ≤ x → x < a + 8 → m1 x = m2 x) : loadPtr m1 a = loadPtr m2 a := by
  unfold loadPtr
  rw [h a (by omega) (by omega), h (a+1) (by omega) (by omega), h (a+2) (by omega) (by omega),
    h (a+3) (by omega) (by omega), h (a+4) (by omega) (by omega), h (a+5) (by omega) (by omega),
    h (a+6) (by omega) (by omega), h (a+7) (by omega) (by omega)]

theorem loadPtr_lt (m : Nat → Nat) (a : Nat) : loadPtr m a < U64 := by
  unfold loadPtr U64
  norm_num
  omega

theorem loadPtr_storePtr_same (m : Nat → Nat) (a v : Nat) (hv : v < U64) :
    loadPtr (storePtr m a v) a = v := by
  unfold U64 at hv
  simp [loadPtr, storePtr]
  omega

/-- Two distinct page-aligned addresses are a whole page apart. -/
theorem page_apart {a b : Nat} (ha : a % PGSIZE = 0) (hb : b % PGSIZE = 0) (hab : a ≠ b) :
    a + PGSIZE ≤ b ∨ b + PGSIZE ≤ a := by
  unfold PGSIZE at *
  omega

theorem loadPtr_memset_other (m : Nat → Nat) {a b : Nat} (c : Nat)
    (ha : a % PGSIZE = 0) (hb : b % PGSIZE = 0) (hab : a ≠ b) :
    loadPtr (memset m b c PGSIZE) a = loadPtr m a := by
  have h := page_apart ha hb hab
  apply loadPtr_congr
  intro x h1 h2
  unfold PGSIZE at h
  simp only [memset, PGSIZE]
  rw [if_neg]
  omega

theorem loadPtr_storePtr_other (m : Nat → Nat) {a b : Nat} (v : Nat)
    (ha : a % PGSIZE = 0) (hb : b % PGSIZE = 0) (hab : a ≠ b) :
    loadPtr (storePtr m b v) a = loadPtr m a := by
  have h := page_apart ha hb hab
  apply loadPtr_congr
  intro x h1 h2
  unfold PGSIZE at h
  simp only [storePtr]
  rw [if_neg]
  omega

theorem Chain.congr {m1 m2 : Nat → Nat} :
    ∀ (l : List Nat) (p : Nat), (∀ a ∈ l, loadPtr m2 a = loadPtr m1 a) →
      Chain m1 p l → Chain m2 p l
  | [], _, _, h => h
  | a :: t, p, hl, h => by
    obtain ⟨h1, h2, h3⟩ := h
    refine ⟨h1, h2, ?_⟩
    rw [hl a (List.mem_cons_self _ _)]
    exact Chain.congr t _ (fun b hb => hl b (List.mem_cons_of_mem _ hb)) h3

theorem Chain.unique {m : Nat → Nat} :
    ∀ (l1 l2 : List Nat) (p : Nat), Chain m p l1 → Chain m p l2 → l1 = l2
  | [], [], _, _, _ => rfl
  | [], b :: _, p, h1, h2 => by
    obtain ⟨e, hne, _⟩ := h2
    exact absurd (e.symm.trans h1) hne
  | a :: _, [], p, h1, h2 => by
    obtain ⟨e, hne, _⟩ := h1
    exact absurd (e.symm.trans h2) hne
  | a :: t1, b :: t2, p, h1, h2 => by
    obtain ⟨e1, _, c1⟩ := h1
    obtain ⟨e2, _, c2⟩ := h2
    have hab : a = b := e1.symm.trans e2
    subst hab
    rw [Chain.unique t1 t2 _ c1 c2]

theorem Chain.tail_of_mem {m : Nat → Nat} :
    ∀ (l : List Nat) (p a : Nat), Chain m p l → a ∈ l →
      ∃ l2, Chain m a l2 ∧ l2.length ≤ l.length
  | [], _, _, _, ha => absurd ha (List.not_mem_nil _)
  | b :: t, p, a, h, ha => by
    rcases List.mem_cons.mp ha with e | hmem
    · subst e
      exact ⟨a :: t, ⟨rfl, h.2.1, h.2.2⟩, le_refl _⟩
    · obtain ⟨l2, c, hlen⟩ := Chain.tail_of_mem t _ a h.2.2 hmem
      exact ⟨l2, c, by simp only [List.length_cons]; omega⟩

theorem Chain.nodup {m : Nat → Nat} :
    ∀ (l : List Nat) (p : Nat), Chain m p l → l.Nodup
  | [], _, _ => List.nodup_nil
  | a :: t, p, h => by
    refine List.nodup_cons.mpr ⟨?_, Chain.nodup t _ h.2.2⟩
    intro hmem
    obtain ⟨l2, c, hlen⟩ := Chain.tail_of_mem t _ a h.2.2 hmem
    have e : l2 = a :: t := Chain.unique l2 (a :: t) a c ⟨rfl, h.2.1, h.2.2⟩
    rw [e] at hlen
    simp only [List.length_cons] at hlen
    omega

/-- Walking the free list with enough fuel reads off the chain. -/
theorem Chain.walk_eq {m : Nat → Nat} :
    ∀ (l : List Nat) (p n : Nat), Chain m p l → l.length < n → walk m n p = l
  | [], p, n + 1, h, _ => by
    have e : p = 0 := h
    simp [walk, e]
  | a :: t, p, n + 1, h, hn => by
    obtain ⟨e, hne, c⟩ := h
    subst e
    simp only [walk, if_neg hne]
    rw [Chain.walk_eq t _ n c (by simpa using hn)]

theorem FreeChain.determined {s : State} {l1 l2 : List Nat}
    (h1 : FreeChain s l1) (h2 : FreeChain s l2) : l1 = l2 :=
  Chain.unique l1 l2 _ h1.1 h2.1

theorem FreeChain.head_lt {s : State} {l : List Nat} (h : FreeChain s l) :
    s.freelist < U64 := by
  cases l with
  | nil => have := h.1; simp only [Chain] at this; rw [this]; unfold U64; norm_num
  | cons a t =>
    have e : s.freelist = a := h.1.1
    rw [e]
    exact (h.2 a (List.mem_cons_self _ _)).2

/-! ## The routines, case by case -/

theorem wrap32_of_range {x : Int} (h1 : INT_MIN ≤ x) (h2 : x ≤ INT_MAX) : wrap32 x = x := by
  unfold wrap32
  unfold INT_MIN at h1
  unfold INT_MAX at h2
  omega

theorem wrap32_range (x : Int) : INT_MIN ≤ wrap32 x ∧ wrap32 x ≤ INT_MAX := by
  unfold wrap32 INT_MIN INT_MAX
  omega

theorem wrap32_add (x y : Int) : wrap32 (wrap32 x + y) = wrap32 (x + y) := by
  unfold wrap32
  omega

theorem inc_ref_eq (L : Layout) (s : State) (pa : Nat) :
    inc_ref L s pa =
      ({ s with ref_count :=
            (Function.update s.ref_count (get_pa_idx L pa)
              (wrap32 (s.ref_count (get_pa_idx L pa) + 1))) },
        wrap32 (s.ref_count (get_pa_idx L pa) + 1)) := by
  rw [inc_ref]
  simp [cas]

theorem dec_ref_eq (L : Layout) (s : State) (pa : Nat) :
    dec_ref L s pa =
      ({ s with ref_count :=
            (Function.update s.ref_count (get_pa_idx L pa)
              (wrap32 (s.ref_count (get_pa_idx L pa) - 1))) },
        wrap32 (s.ref_count (get_pa_idx L pa) - 1)) := by
  rw [dec_ref]
  simp [cas]

theorem kfree_invalid (L : Layout) (s : State) (pa : Nat) (h : ¬ valid_page L pa) :
    kfree L s pa = Outcome.panicked s := by
  unfold kfree
  rw [if_pos]
  unfold valid_page at h
  omega

/-- The early return of `kfree`: references remain after the decrement. -/
theorem kfree_shared (L : Layout) (s : State) (pa : Nat) (hv : valid_page L pa)
    (hc : 0 < wrap32 (s.ref_count (get_pa_idx L pa) - 1)) :
    kfree L s pa = Outcome.done
      { s with ref_count :=
          (Function.update s.ref_count (get_pa_idx L pa)
            (wrap32 (s.ref_count (get_pa_idx L pa) - 1))) } := by
  unfold kfree
  rw [if_neg (by unfold valid_page at hv; omega)]
  simp only [dec_ref_eq]
  rw [if_pos (by omega)]

/-- The freeing path of `kfree`: no reference remains after the decrement. -/
theorem kfree_frees (L : Layout) (s : State) (pa : Nat) (hv : valid_page L pa)
    (hc : wrap32 (s.ref_count (get_pa_idx L pa) - 1) ≤ 0) :
    kfree L s pa = Outcome.done
      { ref_count := Function.update s.ref_count (get_pa_idx L pa) 0,
        freelist := pa,
        mem := storePtr (memset s.mem pa 1 PGSIZE) pa s.freelist } := by
  unfold kfree
  rw [if_neg (by unfold valid_page at hv; omega)]
  simp only [dec_ref_eq]
  rw [if_neg (by omega)]
  simp

/-- The freeing path of `kfree` for a count of `0` or `1`. -/
theorem kfree_last (L : Layout) (s : State) (pa : Nat) (hv : valid_page L pa)
    (h0 : 0 ≤ s.ref_count (get_pa_idx L pa)) (hc : s.ref_count (get_pa_idx L pa) ≤ 1) :
    kfree L s pa = Outcome.done
      { ref_count := Function.update s.ref_count (get_pa_idx L pa) 0,
        freelist := pa,
        mem := storePtr (memset s.mem pa 1 PGSIZE) pa s.freelist } := by
  apply kfree_frees L s pa hv
  unfold wrap32
  omega

/-- A valid address never makes `kfree` panic, whatever the count. -/
theorem kfree_returns_of_valid (L : Layout) (s : State) (pa : Nat) (hv : valid_page L pa) :
    ∃ t, kfree L s pa = Outcome.done t := by
  by_cases hsh : 0 < wrap32 (s.ref_count (get_pa_idx L pa) - 1)
  · exact ⟨_, kfree_shared L s pa hv hsh⟩
  · exact ⟨_, kfree_frees L s pa hv (by omega)⟩

theorem kfree_not_running (L : Layout) (s t : State) (pa : Nat) :
    kfree L s pa ≠ Outcome.running t := by
  by_cases hv : valid_page L pa
  · obtain ⟨u, hu⟩ := kfree_returns_of_valid L s pa hv
    rw [hu]
    intro h
    cases h
  · rw [kfree_invalid L s pa hv]
    intro h
    cases h

theorem kalloc_null (L : Layout) (s : State) (h : s.freelist = 0) : kalloc L s = (s, 0) := by
  simp [kalloc, h]

theorem kalloc_page (L : Layout) (s : State) (h : s.freelist ≠ 0) :
    kalloc L s =
      ({ ref_count := Function.update s.ref_count (get_pa_idx L s.freelist) 1,
         freelist := loadPtr s.mem s.freelist,
         mem := memset s.mem s.freelist 5 PGSIZE }, s.freelist) := by
  simp [kalloc, h]

/-- Popping the head of a chain of pages leaves the rest of the chain. -/
theorem FreeChain.pop {s : State} {h : Nat} {t : List Nat} (c : Nat) (rc : Nat → Int)
    (hc : FreeChain s (h :: t)) :
    FreeChain { ref_count := rc, freelist := loadPtr s.mem h,
                mem := memset s.mem h c PGSIZE } t := by
  obtain ⟨hch, hal⟩ := hc
  have hnd := Chain.nodup _ _ hch
  have hh := hal h (List.mem_cons_self _ _)
  refine ⟨?_, fun a ha => hal a (List.mem_cons_of_mem _ ha)⟩
  apply Chain.congr t _ _ hch.2.2
  intro a ha
  have hne : a ≠ h := by
    rintro rfl
    exact (List.nodup_cons.mp hnd).1 ha
  exact loadPtr_memset_other _ _ (hal a (List.mem_cons_of_mem _ ha)).1 hh.1 hne

/-- Pushing a fresh page on a chain of pages gives the longer chain. -/
theorem FreeChain.push {s : State} {pa : Nat} {l : List Nat} (c : Nat) (rc : Nat → Int)
    (hc : FreeChain s l) (hal : pa % PGSIZE = 0) (hpos : 0 < pa) (hlt : pa < U64)
    (hnew : pa ∉ l) :
    FreeChain { ref_count := rc, freelist := pa,
                mem := storePtr (memset s.mem pa c PGSIZE) pa s.freelist } (pa :: l) := by
  have hhead := hc.head_lt
  obtain ⟨hch, hl⟩ := hc
  refine ⟨⟨rfl, by omega, ?_⟩, ?_⟩
  · show Chain _ (loadPtr (storePtr (memset s.mem pa c PGSIZE) pa s.freelist) pa) l
    rw [loadPtr_storePtr_same _ _ _ hhead]
    apply Chain.congr l _ _ hch
    intro a ha
    have hne : a ≠ pa := by
      rintro rfl
      exact hnew ha
    rw [loadPtr_storePtr_other _ _ (hl a ha).1 hal hne,
      loadPtr_memset_other _ _ (hl a ha).1 hal hne]
  · intro a ha
    rcases List.mem_cons.mp ha with e | hmem
    · subst e
      exact ⟨hal, hlt⟩
    · exact hl a hmem

/-- Changing only the table leaves the chain alone. -/
theorem FreeChain.of_mem_eq {s t : State} {l : List Nat} (hc : FreeChain s l)
    (hf : t.freelist = s.freelist) (hm : t.mem = s.mem) : FreeChain t l := by
  unfold FreeChain at *
  rw [hf, hm]
  exact hc

theorem valid_page_pos {L : Layout} (hL : L.WF) {pa : Nat} (hv : valid_page L pa) : 0 < pa := by
  unfold Layout.WF at hL
  unfold valid_page at hv
  omega

theorem valid_page_lt {L : Layout} (hL : L.WF) {pa : Nat} (hv : valid_page L pa) : pa < U64 := by
  unfold Layout.WF at hL
  unfold valid_page at hv
  omega

/-- Distinct page-aligned 64-bit addresses have distinct table indices. -/
theorem get_pa_idx_inj (L : Layout) {a b : Nat} (ha : a % PGSIZE = 0) (hb : b % PGSIZE = 0)
    (ha2 : a < U64) (hb2 : b < U64) (h : get_pa_idx L a = get_pa_idx L b) : a = b := by
  unfold get_pa_idx sub64 at h
  unfold PGSIZE U64 at *
  have hk : L.KERNBASE % 2 ^ 64 < 2 ^ 64 := Nat.mod_lt _ (by norm_num)
  generalize L.KERNBASE % 2 ^ 64 = k at *
  norm_num at *
  omega

/-! ## The pool invariant -/

theorem PoolInv.head_valid {L : Layout} {s : State} (hinv : PoolInv L s)
    (hne : s.freelist ≠ 0) : valid_page L s.freelist := by
  obtain ⟨l, hc, hv, _⟩ := hinv
  cases l with
  | nil => exact absurd hc.1 hne
  | cons a t =>
    have e : s.freelist = a := hc.1.1
    rw [e]
    exact hv a (List.mem_cons_self _ _)

theorem PoolInv.kalloc {L : Layout} {s : State} (hinv : PoolInv L s) :
    PoolInv L (kalloc L s).1 := by
  by_cases h0 : s.freelist = 0
  · rw [kalloc_null L s h0]
    exact hinv
  · obtain ⟨l, hc, hv, hz⟩ := hinv
    cases l with
    | nil => exact absurd hc.1 h0
    | cons a t =>
      have e : s.freelist = a := hc.1.1
      rw [kalloc_page L s h0, e]
      refine ⟨t, hc.pop 5 _, fun b hb => hv b (List.mem_cons_of_mem _ hb), ?_⟩
      intro b hb
      have hnd := Chain.nodup _ _ hc.1
      have hne : b ≠ a := by
        rintro rfl
        exact (List.nodup_cons.mp hnd).1 hb
      have hi : get_pa_idx L b ≠ get_pa_idx L a := fun hi =>
        hne (get_pa_idx_inj L (hc.2 b (List.mem_cons_of_mem _ hb)).1
          (hc.2 a (List.mem_cons_self _ _)).1 (hc.2 b (List.mem_cons_of_mem _ hb)).2
          (hc.2 a (List.mem_cons_self _ _)).2 hi)
      show Function.update s.ref_count (get_pa_idx L a) 1 (get_pa_idx L b) ≤ 0
      rw [Function.update_noteq hi]
      exact hz b (List.mem_cons_of_mem _ hb)

theorem PoolInv.inc_ref {L : Layout} {s : State} (pa : Nat) (hinv : PoolInv L s)
    (h1 : 1 ≤ s.ref_count (get_pa_idx L pa)) : PoolInv L (inc_ref L s pa).1 := by
  obtain ⟨l, hc, hv, hz⟩ := hinv
  rw [inc_ref_eq]
  refine ⟨l, hc.of_mem_eq rfl rfl, hv, ?_⟩
  intro b hb
  have hi : get_pa_idx L b ≠ get_pa_idx L pa := by
    intro hi
    have := hz b hb
    rw [hi] at this
    omega
  show Function.update s.ref_count (get_pa_idx L pa) _ (get_pa_idx L b) ≤ 0
  rw [Function.update_noteq hi]
  exact hz b hb

theorem PoolInv.dec_ref {L : Layout} {s : State} (pa : Nat) (hinv : PoolInv L s)
    (h1 : 1 ≤ s.ref_count (get_pa_idx L pa)) : PoolInv L (dec_ref L s pa).1 := by
  obtain ⟨l, hc, hv, hz⟩ := hinv
  rw [dec_ref_eq]
  refine ⟨l, hc.of_mem_eq rfl rfl, hv, ?_⟩
  intro b hb
  have hi : get_pa_idx L b ≠ get_pa_idx L pa := by
    intro hi
    have := hz b hb
    rw [hi] at this
    omega
  show Function.update s.ref_count (get_pa_idx L pa) _ (get_pa_idx L b) ≤ 0
  rw [Function.update_noteq hi]
  exact hz b hb

theorem PoolInv.kfree {L : Layout} (hL : L.WF) {s t : State} (pa : Nat) (hinv : PoolInv L s)
    (h1 : 1 ≤ s.ref_count (get_pa_idx L pa)) (hk : kfree L s pa = Outcome.done t) :
    PoolInv L t := by
  by_cases hval : valid_page L pa
  · obtain ⟨l, hc, hv, hz⟩ := hinv
    have hnew : pa ∉ l := by
      intro hmem
      have := hz pa hmem
      omega
    by_cases hsh : 0 < wrap32 (s.ref_count (get_pa_idx L pa) - 1)
    · rw [kfree_shared L s pa hval hsh] at hk
      injection hk with hk
      subst hk
      refine ⟨l, hc.of_mem_eq rfl rfl, hv, ?_⟩
      intro b hb
      have hi : get_pa_idx L b ≠ get_pa_idx L pa := by
        intro hi
        have := hz b hb
        rw [hi] at this
        omega
      show Function.update s.ref_count (get_pa_idx L pa) _ (get_pa_idx L b) ≤ 0
      rw [Function.update_noteq hi]
      exact hz b hb
    · rw [kfree_frees L s pa hval (by omega)] at hk
      injection hk with hk
      subst hk
      refine ⟨pa :: l, hc.push 1 _ hval.1 (valid_page_pos hL hval) (valid_page_lt hL hval) hnew,
        ?_, ?_⟩
      · intro b hb
        rcases List.mem_cons.mp hb with e | hmem
        · subst e; exact hval
        · exact hv b hmem
      · intro b hb
        show Function.update s.ref_count (get_pa_idx L pa) 0 (get_pa_idx L b) ≤ 0
        by_cases hi : get_pa_idx L b = get_pa_idx L pa
        · rw [hi, Function.update_same]
        · rw [Function.update_noteq hi]
          rcases List.mem_cons.mp hb with e | hmem
          · subst e; exact absurd rfl hi
          · exact hz b hmem
  · rw [kfree_invalid L s pa hval] at hk
    cases hk

/-! ## What `kinit` establishes -/

theorem mem_pages {a : Nat} : ∀ (n p : Nat), a ∈ pages p n ↔ ∃ k, k < n ∧ a = p + k * PGSIZE
  | 0, p => by simp [pages]
  | n + 1, p => by
    simp only [pages, List.mem_cons, mem_pages n (p + PGSIZE)]
    constructor
    · rintro (e | ⟨k, hk, e⟩)
      · exact ⟨0, by omega, by omega⟩
      · exact ⟨k + 1, by omega, by rw [e]; ring⟩
    · rintro ⟨k, hk, e⟩
      cases k with
      | zero => left; omega
      | succ j => right; exact ⟨j, by omega, by rw [e]; ring⟩

theorem PGROUNDUP_spec (a : Nat) (h : a + PGSIZE ≤ U64) :
    PGROUNDUP a % PGSIZE = 0 ∧ a ≤ PGROUNDUP a ∧ PGROUNDUP a < a + PGSIZE := by
  unfold PGROUNDUP
  unfold PGSIZE U64 at *
  norm_num at *
  omega

theorem ROUNDS_eq : ROUNDS = U64 / PGSIZE + 1 := by
  unfold ROUNDS
  rfl

/-- The loop of `freerange` on a zeroed table pushes every whole page from
`p` up to `PHYSTOP`, lowest first, and leaves the table zeroed; the one other
outcome is a panic on the last page of the address space, which needs
`PHYSTOP` within two pages of `2 ^ 64`. -/
theorem freerange_loop_spec (L : Layout) (hL : L.WF) :
    ∀ (n fuel p : Nat) (s : State) (l : List Nat), n = (L.PHYSTOP - p) / PGSIZE →
      n < fuel → p % PGSIZE = 0 → L.kernel_end ≤ p → p < L.PHYSTOP + PGSIZE →
      FreeChain s l → (∀ a ∈ l, a < p) → (∀ i, s.ref_count i = 0) →
      (∃ t, freerange_loop L L.PHYSTOP fuel s p = Outcome.done t ∧
        FreeChain t ((pages p n).reverse ++ l) ∧ ∀ i, t.ref_count i = 0) ∨
      (U64 < L.PHYSTOP + 2 * PGSIZE ∧
        ∃ u, freerange_loop L L.PHYSTOP fuel s p = Outcome.panicked u)
  | _, 0, _, _, _, _, hf, _, _, _, _, _, _ => absurd hf (Nat.not_lt_zero _)
  | 0, f + 1, p, s, l, hn, _, hal, _, hlt2, hc, _, hz => by
    have hU := hL.2.2
    by_cases hw : p + PGSIZE < U64
    · left
      rw [freerange_loop, Nat.mod_eq_of_lt hw, if_neg (by unfold PGSIZE at *; omega)]
      exact ⟨s, rfl, by simpa [pages] using hc, hz⟩
    · right
      have hp : p = U64 - PGSIZE := by unfold PGSIZE U64 at *; omega
      have hg : (p + PGSIZE) % U64 = 0 := by rw [hp]; unfold PGSIZE U64; norm_num
      have hinv : ¬ valid_page L p := by
        unfold valid_page
        unfold PGSIZE U64 at *
        omega
      refine ⟨by unfold PGSIZE U64 at *; omega, s, ?_⟩
      rw [freerange_loop, hg, if_pos (Nat.zero_le _), kfree_invalid L s p hinv]
  | n + 1, f + 1, p, s, l, hn, hf, hal, hge, _, hc, hlt, hz => by
    have hU := hL.2.2
    have hle : p + PGSIZE ≤ L.PHYSTOP := by unfold PGSIZE at *; omega
    have hw : (p + PGSIZE) % U64 = p + PGSIZE :=
      Nat.mod_eq_of_lt (by unfold PGSIZE U64 at *; omega)
    have hval : valid_page L p := ⟨hal, hge, by unfold PGSIZE at *; omega⟩
    have hnew : p ∉ l := fun hmem => Nat.lt_irrefl _ (hlt p hmem)
    rw [freerange_loop, hw, if_pos hle,
      kfree_last L s p hval (by rw [hz]) (by rw [hz]; norm_num)]
    have hpush := hc.push 1 (Function.update s.ref_count (get_pa_idx L p) 0) hval.1
      (valid_page_pos hL hval) (valid_page_lt hL hval) hnew
    have ih := freerange_loop_spec L hL n f (p + PGSIZE) _ (p :: l)
      (by unfold PGSIZE at *; omega) (by omega) (by unfold PGSIZE at *; omega) (by omega)
      (by unfold PGSIZE at *; omega) hpush
      (by
        intro a ha
        rcases List.mem_cons.mp ha with e | hmem
        · unfold PGSIZE; omega
        · have := hlt a hmem; omega)
      (by
        intro i
        show Function.update s.ref_count (get_pa_idx L p) 0 i = 0
        by_cases hi : i = get_pa_idx L p
        · rw [hi, Function.update_same]
        · rw [Function.update_noteq hi, hz])
    rcases ih with ⟨t, ht, hct, hzt⟩ | ⟨hbig, u, hu⟩
    · left
      refine ⟨t, ht, ?_, hzt⟩
      simpa [pages] using hct
    · right
      exact ⟨hbig, u, hu⟩

/-- The function `kinit` returns, with the whole pages of the managed range
on the free list, highest first, and a zeroed table, unless `PHYSTOP` lies
within two pages of `2 ^ 64`, where it may panic instead. -/
theorem kinit_cases (L : Layout) (hL : L.WF) (m : Nat → Nat) :
    (∃ t, kinit L (boot m) = Outcome.done t ∧ FreeChain t (free_pages L) ∧
      ∀ i, t.ref_count i = 0) ∨
    (U64 < L.PHYSTOP + 2 * PGSIZE ∧ ∃ u, kinit L (boot m) = Outcome.panicked u) := by
  have hr := PGROUNDUP_spec L.kernel_end (by unfold Layout.WF at hL; omega)
  have hfuel : whole_pages L < ROUNDS := by
    rw [ROUNDS_eq]
    unfold whole_pages
    have := hL.2.2
    unfold PGSIZE U64 at *
    omega
  have h := freerange_loop_spec L hL (whole_pages L) ROUNDS (PGROUNDUP L.kernel_end)
    { (boot m) with
      ref_count := fun i => if i < NUM_PYS_PAGES L then 0 else (boot m).ref_count i } []
    rfl hfuel hr.1 hr.2.1 (by have := hL.2.1; omega)
    ⟨rfl, fun a ha => absurd ha (List.not_mem_nil _)⟩
    (fun a ha => absurd ha (List.not_mem_nil _))
    (by intro i; simp [boot])
  rcases h with ⟨t, ht, hc, hz⟩ | ⟨hbig, u, hu⟩
  · left
    exact ⟨t, ht, by simpa [free_pages] using hc, hz⟩
  · right
    exact ⟨hbig, u, hu⟩

/-- With `PHYSTOP` at least two pages below `2 ^ 64` the function `kinit`
returns. -/
theorem kinit_spec (L : Layout) (hL : L.WF) (hT : L.PHYSTOP + 2 * PGSIZE ≤ U64)
    (m : Nat → Nat) :
    ∃ t, kinit L (boot m) = Outcome.done t ∧ FreeChain t (free_pages L) ∧
      ∀ i, t.ref_count i = 0 := by
  rcases kinit_cases L hL m with h | ⟨hbig, _⟩
  · exact h
  · omega

theorem Outcome.done_inj {s t : State} (h : Outcome.done s = Outcome.done t) : s = t := by
  injection h

/-- Whenever `kinit` returns, it has put the whole pages of the managed range
on the free list and zeroed the table. -/
theorem kinit_done_spec (L : Layout) (hL : L.WF) {m : Nat → Nat} {s : State}
    (hk : kinit L (boot m) = Outcome.done s) :
    FreeChain s (free_pages L) ∧ ∀ i, s.ref_count i = 0 := by
  rcases kinit_cases L hL m with ⟨t, ht, hc, hz⟩ | ⟨_, u, hu⟩
  · rw [hk] at ht
    have e := Outcome.done_inj ht
    subst e
    exact ⟨hc, hz⟩
  · rw [hk] at hu
    cases hu

theorem mem_free_pages (L : Layout) (hL : L.WF) (a : Nat) :
    a ∈ free_pages L ↔ a % PGSIZE = 0 ∧ L.kernel_end ≤ a ∧ a + PGSIZE ≤ L.PHYSTOP := by
  have hr := PGROUNDUP_spec L.kernel_end (by unfold Layout.WF at hL; omega)
  unfold free_pages whole_pages
  rw [List.mem_reverse, mem_pages]
  generalize PGROUNDUP L.kernel_end = r at *
  unfold PGSIZE at *
  constructor
  · rintro ⟨k, hk, e⟩
    omega
  · rintro ⟨h1, h2, h3⟩
    refine ⟨(a - r) / 4096, ?_, ?_⟩
    · omega
    · omega

/-! ## Reachable states and repeated allocation -/

/-- Every reachable state keeps the pool invariant. -/
theorem Reachable.poolInv {L : Layout} (hL : L.WF) {s : State} (hr : Reachable L s) :
    PoolInv L s := by
  induction hr with
  | init m s hk =>
    obtain ⟨hc, hz⟩ := kinit_done_spec L hL hk
    refine ⟨free_pages L, hc, ?_, fun a _ => by rw [hz]⟩
    intro a ha
    have := (mem_free_pages L hL a).mp ha
    exact ⟨this.1, this.2.1, by unfold PGSIZE at this; omega⟩
  | kalloc s _ ih => exact ih.kalloc
  | inc_ref s pa _ h1 ih => exact ih.inc_ref pa h1
  | dec_ref s pa _ h1 ih => exact ih.dec_ref pa h1
  | kfree s t pa _ h1 hk ih => exact ih.kfree hL pa h1 hk

theorem FreeChain.nil_iff (s : State) : FreeChain s [] ↔ s.freelist = 0 := by
  simp [FreeChain, Chain]

theorem FreeChain.head_eq {s : State} {h : Nat} {t : List Nat} (hc : FreeChain s (h :: t)) :
    s.freelist = h ∧ h ≠ 0 := ⟨hc.1.1, hc.1.2.1⟩

/-- Allocating `n` times from a chain of at least `n` pages returns its first
`n` entries in order and leaves the rest. -/
theorem kalloc_n_spec (L : Layout) :
    ∀ (n : Nat) (s : State) (l : List Nat), FreeChain s l → n ≤ l.length →
      (kalloc_n L n s).2 = l.take n ∧ FreeChain (kalloc_n L n s).1 (l.drop n)
  | 0, s, l, hc, _ => by simpa [kalloc_n] using hc
  | n + 1, s, [], _, hn => by simp at hn
  | n + 1, s, a :: t, hc, hn => by
    have hh := hc.head_eq
    have hne : s.freelist ≠ 0 := by rw [hh.1]; exact hh.2
    have hk := kalloc_page L s hne
    rw [hh.1] at hk
    have hpop := hc.pop 5 (Function.update s.ref_count (get_pa_idx L a) 1)
    obtain ⟨h1, h2⟩ := kalloc_n_spec L n _ t hpop (by simpa using hn)
    simp only [kalloc_n, hk, List.take_succ_cons, List.drop_succ_cons]
    exact ⟨by rw [h1], h2⟩

theorem pages_pairwise_lt : ∀ (n p : Nat), (pages p n).Pairwise (· < ·)
  | 0, _ => List.Pairwise.nil
  | n + 1, p => by
    simp only [pages, List.pairwise_cons]
    refine ⟨?_, pages_pairwise_lt n _⟩
    intro a ha
    obtain ⟨k, _, e⟩ := (mem_pages n (p + PGSIZE)).mp ha
    unfold PGSIZE at e
    omega

theorem free_pages_nodup (L : Layout) : (free_pages L).Nodup := by
  unfold free_pages
  rw [List.nodup_reverse]
  exact (pages_pairwise_lt _ _).imp (fun h => Nat.ne_of_lt h)

theorem managed_pages_card (L : Layout) (hL : L.WF) :
    (managed_pages L).card = (free_pages L).length := by
  have e : managed_pages L = (free_pages L).toFinset := by
    ext a
    rw [List.mem_toFinset, mem_free_pages L hL]
    simp only [managed_pages, Finset.mem_filter, Finset.mem_range]
    unfold PGSIZE
    constructor
    · rintro ⟨_, h⟩; exact h
    · intro h; exact ⟨by omega, h⟩
  rw [e, List.toFinset_card_of_nodup (free_pages_nodup L)]

theorem kinit_small : kinit small (boot fun _ => 0) = Outcome.done small_init := by
  have e : PGROUNDUP small.kernel_end = 8192 := by decide
  have hR : ROUNDS = 4503599627370494 + 1 + 1 + 1 := by
    rw [ROUNDS_eq]
    decide
  have h1 : (8192 + PGSIZE) % U64 = 12288 := by decide
  have h2 : (12288 + PGSIZE) % U64 = 16384 := by decide
  have h3 : (16384 + PGSIZE) % U64 = 20480 := by decide
  unfold kinit freerange
  rw [e, hR, freerange_loop, h1, if_pos (by decide),
    kfree_last _ _ _ (by decide) (by simp [boot]) (by simp [boot])]
  simp only
  rw [freerange_loop, h2, if_pos (by decide),
    kfree_last _ _ _ (by decide) (by simp [boot, Function.update])
      (by simp [boot, Function.update])]
  simp only
  rw [freerange_loop, h3, if_neg (by decide)]
  congr 1
  unfold small_init
  congr 1
  funext i
  simp [boot, Function.update]

/-! ## The claims -/

/-- C1: after `kinit()` every page-aligned address `a` with `end <= a` and
`a + 4096 <= PHYSTOP` occurs on the free chain exactly once (the chain has no
duplicates and misses no such page) and its reference count is `0`. -/
theorem kinit_frees_managed_range (L : Layout) (hL : L.WF)
    (hT : L.PHYSTOP + 2 * PGSIZE ≤ U64) (m : Nat → Nat) :
    ∃ s l, kinit L (boot m) = Outcome.done s ∧ FreeChain s l ∧ l.Nodup ∧
      ∀ a, a % 4096 = 0 → L.kernel_end ≤ a → a + 4096 ≤ L.PHYSTOP →
        l.count a = 1 ∧ s.ref_count (get_pa_idx L a) = 0 := by
  obtain ⟨s, hs, hc, hz⟩ := kinit_spec L hL hT m
  have hnd := Chain.nodup _ _ hc.1
  refine ⟨s, free_pages L, hs, hc, hnd, ?_⟩
  intro a h1 h2 h3
  exact ⟨List.count_eq_one_of_mem hnd ((mem_free_pages L hL a).mpr ⟨h1, h2, h3⟩), hz _⟩

theorem kinit_frees_managed_range_witness :
    small.WF ∧ small.PHYSTOP + 2 * PGSIZE ≤ U64 ∧
      ∃ s l, kinit small (boot fun _ => 7) = Outcome.done s ∧ FreeChain s l ∧ l.Nodup ∧
      ∀ a, a % 4096 = 0 → small.kernel_end ≤ a → a + 4096 ≤ small.PHYSTOP →
        l.count a = 1 ∧ s.ref_count (get_pa_idx small a) = 0 :=
  ⟨by decide, by decide, kinit_frees_managed_range small (by decide) (by decide) (fun _ => 7)⟩

/-- C2: in a state whose free chain is `h :: t`, `kalloc()` returns `h`,
leaves the free chain equal to `t`, sets `ref_count[get_pa_idx(h)]` to `1` and
leaves every other slot of the table unchanged. -/
theorem kalloc_pops_head (L : Layout) (s : State) (h : Nat) (t : List Nat)
    (hc : FreeChain s (h :: t)) :
    (kalloc L s).2 = h ∧ FreeChain (kalloc L s).1 t ∧
      (kalloc L s).1.ref_count (get_pa_idx L h) = 1 ∧
      ∀ i, i ≠ get_pa_idx L h → (kalloc L s).1.ref_count i = s.ref_count i := by
  have hh := hc.head_eq
  have hk := kalloc_page L s (by rw [hh.1]; exact hh.2)
  rw [hh.1] at hk
  rw [hk]
  refine ⟨rfl, hc.pop 5 _, Function.update_same _ _ _, ?_⟩
  intro i hi
  exact Function.update_noteq hi _ _

theorem kalloc_pops_head_witness :
    FreeChain small_init (12288 :: [8192]) ∧
      (kalloc small small_init).2 = 12288 ∧ FreeChain (kalloc small small_init).1 [8192] ∧
      (kalloc small small_init).1.ref_count (get_pa_idx small 12288) = 1 ∧
      ∀ i, i ≠ get_pa_idx small 12288 →
        (kalloc small small_init).1.ref_count i = small_init.ref_count i :=
  ⟨by decide, kalloc_pops_head small small_init 12288 [8192] (by decide)⟩

/-- C3: when the free chain is empty, `kalloc()` returns the no-memory result
`0` and changes nothing: neither the free chain nor any slot of the table. -/
theorem kalloc_exhausted (L : Layout) (s : State) (hc : FreeChain s []) :
    kalloc L s = (s, 0) :=
  kalloc_null L s ((FreeChain.nil_iff s).mp hc)

theorem kalloc_exhausted_witness :
    FreeChain (boot fun _ => 7) [] ∧ kalloc small (boot fun _ => 7) = (boot fun _ => 7, 0) :=
  ⟨by decide, kalloc_exhausted small (boot fun _ => 7) (by decide)⟩

/-- C4: `kfree(pa)` takes the panic path exactly when `pa` is not a multiple
of `4096`, or lies below `end`, or lies at or above `PHYSTOP`; the state in
which it panics is the state it was called in (table and free chain
untouched); in particular it panics one byte below `end` and on every
address that is not page-aligned. -/
theorem kfree_panics_iff (L : Layout) (s : State) (pa : Nat) :
    ((∃ t, kfree L s pa = Outcome.panicked t) ↔
        (pa % 4096 ≠ 0 ∨ pa < L.kernel_end ∨ L.PHYSTOP ≤ pa)) ∧
      (∀ t, kfree L s pa = Outcome.panicked t → t = s) ∧
      (pa + 1 = L.kernel_end → kfree L s pa = Outcome.panicked s) ∧
      (pa % 4096 ≠ 0 → kfree L s pa = Outcome.panicked s) := by
  have hbad : (pa % 4096 ≠ 0 ∨ pa < L.kernel_end ∨ L.PHYSTOP ≤ pa) →
      kfree L s pa = Outcome.panicked s := by
    intro h
    apply kfree_invalid
    unfold valid_page PGSIZE
    omega
  have hgood : ¬ (pa % 4096 ≠ 0 ∨ pa < L.kernel_end ∨ L.PHYSTOP ≤ pa) →
      ∃ t, kfree L s pa = Outcome.done t := by
    intro h
    have hv : valid_page L pa := by
      unfold valid_page PGSIZE
      omega
    exact kfree_returns_of_valid L s pa hv
  refine ⟨⟨?_, fun h => ⟨s, hbad h⟩⟩, ?_, fun h => hbad (by omega), fun h => hbad (Or.inl h)⟩
  · rintro ⟨t, ht⟩
    by_contra hn
    obtain ⟨u, hu⟩ := hgood hn
    rw [hu] at ht
    cases ht
  · intro t ht
    by_cases hn : pa % 4096 ≠ 0 ∨ pa < L.kernel_end ∨ L.PHYSTOP ≤ pa
    · rw [hbad hn] at ht
      injection ht with ht
      exact ht.symm
    · obtain ⟨u, hu⟩ := hgood hn
      rw [hu] at ht
      cases ht

/-- C5: for a valid (page-aligned, in-range) address `pa` whose count is the
`int` `c`:
if `c - 1 > 0`, `kfree(pa)` stores `c - 1` in the slot of `pa` and returns with
the free list and memory untouched; if `c - 1 = 0`, it returns with the slot
at `0` and `pa` pushed at the head of the free chain (the head pointer is
`pa`, the link of `pa` is the old head, and a chain `l` that did not hold `pa`
becomes `pa :: l`); in both cases every other slot is unchanged. -/
theorem kfree_valid (L : Layout) (hL : L.WF) (s : State) (pa : Nat) (c : Int)
    (hv : valid_page L pa) (hc : s.ref_count (get_pa_idx L pa) = c) (hmax : c ≤ INT_MAX) :
    (0 < c - 1 →
        kfree L s pa = Outcome.done
          { s with ref_count := Function.update s.ref_count (get_pa_idx L pa) (c - 1) }) ∧
      (c - 1 = 0 →
        ∃ t, kfree L s pa = Outcome.done t ∧
          t.ref_count = Function.update s.ref_count (get_pa_idx L pa) 0 ∧
          t.freelist = pa ∧
          (s.freelist < U64 → loadPtr t.mem pa = s.freelist) ∧
          ∀ l, FreeChain s l → pa ∉ l → FreeChain t (pa :: l)) := by
  subst hc
  constructor
  · intro h
    have hw : wrap32 (s.ref_count (get_pa_idx L pa) - 1) = s.ref_count (get_pa_idx L pa) - 1 :=
      wrap32_of_range (by unfold INT_MIN; omega) (by unfold INT_MAX at *; omega)
    have hk := kfree_shared L s pa hv (by rw [hw]; exact h)
    rw [hw] at hk
    exact hk
  · intro h
    refine ⟨_, kfree_last L s pa hv (by omega) (by omega), rfl, rfl, ?_, ?_⟩
    · intro hlt
      exact loadPtr_storePtr_same _ _ _ hlt
    · intro l hl hnew
      exact hl.push 1 _ hv.1 (valid_page_pos hL hv) (valid_page_lt hL hv) hnew

theorem kfree_valid_witness :
    small.WF ∧ valid_page small 8192 ∧ small_shared.ref_count (get_pa_idx small 8192) = 3 ∧
      (3 : Int) ≤ INT_MAX ∧
      (0 < (3 : Int) - 1 →
        kfree small small_shared 8192 = Outcome.done
          { small_shared with
            ref_count := Function.update small_shared.ref_count (get_pa_idx small 8192) (3 - 1) }) ∧
      ((3 : Int) - 1 = 0 →
        ∃ t, kfree small small_shared 8192 = Outcome.done t ∧
          t.ref_count = Function.update small_shared.ref_count (get_pa_idx small 8192) 0 ∧
          t.freelist = 8192 ∧
          (small_shared.freelist < U64 → loadPtr t.mem 8192 = small_shared.freelist) ∧
          ∀ l, FreeChain small_shared l → 8192 ∉ l → FreeChain t (8192 :: l)) :=
  ⟨by decide, by decide, by decide, by decide,
    kfree_valid small (by decide) small_shared 8192 3 (by decide) (by decide) (by decide)⟩

/-- C6: in every state reachable after `kinit()` whose free list is not
empty, `kalloc()` followed at once by `kfree()` of the returned address
returns normally, leaves a free chain of the length it had before the
allocation (the same chain), and leaves the count of that page at `0`. -/
theorem kalloc_kfree_round_trip (L : Layout) (hL : L.WF) (s : State)
    (hr : Reachable L s) (hne : s.freelist ≠ 0) :
    ∃ l t k, FreeChain s l ∧ l ≠ [] ∧
      kfree L (kalloc L s).1 (kalloc L s).2 = Outcome.done t ∧
      FreeChain t k ∧ k.length = l.length ∧ k = l ∧
      t.ref_count (get_pa_idx L (kalloc L s).2) = 0 := by
  obtain ⟨l, hc, hv, _⟩ := hr.poolInv hL
  cases l with
  | nil => exact absurd hc.1 hne
  | cons a r =>
    have hh := hc.head_eq
    have hk := kalloc_page L s hne
    rw [hh.1] at hk
    have hva := hv a (List.mem_cons_self _ _)
    have hnd := Chain.nodup _ _ hc.1
    have hpop := hc.pop 5 (Function.update s.ref_count (get_pa_idx L a) 1)
    rw [hk]
    refine ⟨a :: r, _, a :: r, hc, List.cons_ne_nil _ _,
      kfree_last L _ a hva (by simp) (by simp), ?_, rfl, rfl, by simp⟩
    exact hpop.push 1 _ hva.1 (valid_page_pos hL hva) (valid_page_lt hL hva)
      (List.nodup_cons.mp hnd).1

theorem kalloc_kfree_round_trip_witness :
    small.WF ∧ Reachable small small_init ∧ small_init.freelist ≠ 0 ∧
      ∃ l t k, FreeChain small_init l ∧ l ≠ [] ∧
        kfree small (kalloc small small_init).1 (kalloc small small_init).2 = Outcome.done t ∧
        FreeChain t k ∧ k.length = l.length ∧ k = l ∧
        t.ref_count (get_pa_idx small (kalloc small small_init).2) = 0 :=
  ⟨by decide, Reachable.init _ _ kinit_small, by decide,
    kalloc_kfree_round_trip small (by decide) small_init
      (Reachable.init _ _ kinit_small) (by decide)⟩

/-- C7: for a page `p` returned by `kalloc()` in a reachable state,
`inc_ref(p)` returns `2` and leaves the count at `2`; one `kfree(p)` then
lowers the count to `1` and leaves the free list and memory, hence the free
chain `l`, as they were, with `p` not on it; a second `kfree(p)` brings the
count to `0` and puts `p` at the head of the chain. -/
theorem sharing_needs_two_releases (L : Layout) (hL : L.WF) (s : State)
    (hr : Reachable L s) (p : Nat) (hp : (kalloc L s).2 = p) (hne : p ≠ 0) :
    (inc_ref L (kalloc L s).1 p).2 = 2 ∧
      (inc_ref L (kalloc L s).1 p).1.ref_count (get_pa_idx L p) = 2 ∧
      ∃ t u l,
        kfree L (inc_ref L (kalloc L s).1 p).1 p = Outcome.done t ∧
        t.ref_count (get_pa_idx L p) = 1 ∧
        t.freelist = (inc_ref L (kalloc L s).1 p).1.freelist ∧
        t.mem = (inc_ref L (kalloc L s).1 p).1.mem ∧
        FreeChain (inc_ref L (kalloc L s).1 p).1 l ∧ FreeChain t l ∧ p ∉ l ∧
        kfree L t p = Outcome.done u ∧
        u.ref_count (get_pa_idx L p) = 0 ∧ FreeChain u (p :: l) := by
  have hfl : s.freelist = p := by
    rw [← hp]
    simp [kalloc]
  have hne2 : s.freelist ≠ 0 := by rw [hfl]; exact hne
  obtain ⟨l, hc, hv, _⟩ := hr.poolInv hL
  cases l with
  | nil => exact absurd hc.1 hne2
  | cons a r =>
    have hh := hc.head_eq
    have hap : a = p := hh.1.symm.trans hfl
    subst hap
    have hk := kalloc_page L s hne2
    rw [hh.1] at hk
    have hva := hv a (List.mem_cons_self _ _)
    have hnd := Chain.nodup _ _ hc.1
    have hpop := hc.pop 5 (Function.update s.ref_count (get_pa_idx L a) 1)
    have w2 : wrap32 (1 + 1) = 2 := by decide
    have w1 : wrap32 1 = 1 := by decide
    rw [hk, inc_ref_eq]
    simp only [Function.update_same, Function.update_idem, w2]
    refine ⟨trivial, trivial, ?_⟩
    refine ⟨_, _, r, kfree_shared L _ a hva (by simp [w1]), by simp [w1], rfl, rfl,
      hpop.of_mem_eq rfl rfl, hpop.of_mem_eq rfl rfl, (List.nodup_cons.mp hnd).1,
      kfree_last L _ a hva (by simp [w1]) (by simp [w1]), by simp, ?_⟩
    exact hpop.push 1 _ hva.1 (valid_page_pos hL hva) (valid_page_lt hL hva)
      (List.nodup_cons.mp hnd).1

theorem sharing_needs_two_releases_witness :
    small.WF ∧ Reachable small small_init ∧ (kalloc small small_init).2 = 12288 ∧
      (12288 : Nat) ≠ 0 ∧
      (inc_ref small (kalloc small small_init).1 12288).2 = 2 ∧
      (inc_ref small (kalloc small small_init).1 12288).1.ref_count (get_pa_idx small 12288) = 2 ∧
      ∃ t u l,
        kfree small (inc_ref small (kalloc small small_init).1 12288).1 12288 = Outcome.done t ∧
        t.ref_count (get_pa_idx small 12288) = 1 ∧
        t.freelist = (inc_ref small (kalloc small small_init).1 12288).1.freelist ∧
        t.mem = (inc_ref small (kalloc small small_init).1 12288).1.mem ∧
        FreeChain (inc_ref small (kalloc small small_init).1 12288).1 l ∧ FreeChain t l ∧
        12288 ∉ l ∧
        kfree small t 12288 = Outcome.done u ∧
        u.ref_count (get_pa_idx small 12288) = 0 ∧ FreeChain u (12288 :: l) :=
  ⟨by decide, Reachable.init _ _ kinit_small, by decide, by decide,
    sharing_needs_two_releases small (by decide) small_init
      (Reachable.init _ _ kinit_small) 12288 (by decide) (by decide)⟩

/-- C8: if the managed range `[end, PHYSTOP)` holds exactly `N` whole pages,
then after `kinit()` `N` successive calls of `kalloc()` all succeed (none
returns `0`) and return `N` pairwise distinct addresses, and the call after
them returns the exhaustion result `0`. -/
theorem capacity (L : Layout) (hL : L.WF) (hT : L.PHYSTOP + 2 * PGSIZE ≤ U64)
    (m : Nat → Nat) (N : Nat) (hN : (managed_pages L).card = N) :
    ∃ s, kinit L (boot m) = Outcome.done s ∧
      (kalloc_n L N s).2.length = N ∧ (∀ a ∈ (kalloc_n L N s).2, a ≠ 0) ∧
      (kalloc_n L N s).2.Nodup ∧ (kalloc L (kalloc_n L N s).1).2 = 0 := by
  obtain ⟨s, hs, hc, _⟩ := kinit_spec L hL hT m
  have hlen : (free_pages L).length = N := by rw [← managed_pages_card L hL, hN]
  obtain ⟨h1, h2⟩ := kalloc_n_spec L N s (free_pages L) hc (le_of_eq hlen.symm)
  rw [List.take_of_length_le (le_of_eq hlen)] at h1
  rw [List.drop_of_length_le (le_of_eq hlen)] at h2
  refine ⟨s, hs, by rw [h1, hlen], ?_, by rw [h1]; exact Chain.nodup _ _ hc.1, ?_⟩
  · intro a ha
    rw [h1] at ha
    have := (mem_free_pages L hL a).mp ha
    have := hL.1
    omega
  · rw [kalloc_null L _ ((FreeChain.nil_iff _).mp h2)]

theorem capacity_witness :
    small.WF ∧ small.PHYSTOP + 2 * PGSIZE ≤ U64 ∧ (managed_pages small).card = 2 ∧
      ∃ s, kinit small (boot fun _ => 7) = Outcome.done s ∧
        (kalloc_n small 2 s).2.length = 2 ∧ (∀ a ∈ (kalloc_n small 2 s).2, a ≠ 0) ∧
        (kalloc_n small 2 s).2.Nodup ∧ (kalloc small (kalloc_n small 2 s).1).2 = 0 :=
  ⟨by decide, by decide, (managed_pages_card small (by decide)).trans (by decide),
    capacity small (by decide) (by decide) (fun _ => 7) 2
      ((managed_pages_card small (by decide)).trans (by decide))⟩

/-- C9, as the code has it: for an address `pa` whose slot holds an `int` `c`
below `INT_MAX`, and with no interference, the first compare-and-swap of
`inc_ref(pa)` stores `c + 1` and reports success, so the loop ends after one
iteration; `inc_ref(pa)` returns `c + 1`, the slot holds `c + 1`, every other
slot is unchanged, and so are the free list and memory. -/
theorem inc_ref_spec (L : Layout) (s : State) (pa : Nat) (c : Int)
    (hc : s.ref_count (get_pa_idx L pa) = c) (hmin : INT_MIN ≤ c) (hmax : c < INT_MAX) :
    cas s.ref_count (get_pa_idx L pa) c (c + 1)
        = (Function.update s.ref_count (get_pa_idx L pa) (c + 1), 0) ∧
      (inc_ref L s pa).2 = c + 1 ∧
      (inc_ref L s pa).1.ref_count (get_pa_idx L pa) = c + 1 ∧
      (∀ i, i ≠ get_pa_idx L pa → (inc_ref L s pa).1.ref_count i = s.ref_count i) ∧
      (inc_ref L s pa).1.freelist = s.freelist ∧ (inc_ref L s pa).1.mem = s.mem := by
  subst hc
  have hw : wrap32 (s.ref_count (get_pa_idx L pa) + 1) = s.ref_count (get_pa_idx L pa) + 1 :=
    wrap32_of_range (by unfold INT_MIN at *; omega) (by unfold INT_MAX at *; omega)
  rw [inc_ref_eq, hw]
  refine ⟨by simp [cas], rfl, Function.update_same _ _ _, ?_, rfl, rfl⟩
  intro i hi
  exact Function.update_noteq hi _ _

theorem inc_ref_spec_witness :
    small_shared.ref_count (get_pa_idx small 8192) = 3 ∧ INT_MIN ≤ 3 ∧ 3 < INT_MAX ∧
      cas small_shared.ref_count (get_pa_idx small 8192) 3 (3 + 1)
        = (Function.update small_shared.ref_count (get_pa_idx small 8192) (3 + 1), 0) ∧
      (inc_ref small small_shared 8192).2 = 3 + 1 ∧
      (inc_ref small small_shared 8192).1.ref_count (get_pa_idx small 8192) = 3 + 1 ∧
      (∀ i, i ≠ get_pa_idx small 8192 →
        (inc_ref small small_shared 8192).1.ref_count i = small_shared.ref_count i) ∧
      (inc_ref small small_shared 8192).1.freelist = small_shared.freelist ∧
      (inc_ref small small_shared 8192).1.mem = small_shared.mem :=
  ⟨by decide, by decide, by decide,
    inc_ref_spec small small_shared 8192 3 (by decide) (by decide) (by decide)⟩

/-- C9 fails as stated: when the slot holds `INT_MAX = 2147483647` the `int`
sum `old + 1` overflows, and `inc_ref` stores and returns `-2147483648`,
which is not `c + 1`. -/
theorem inc_ref_overflows :
    (small_counted 2147483647).ref_count (get_pa_idx small 8192) = 2147483647 ∧
      (inc_ref small (small_counted 2147483647) 8192).2 = -2147483648 ∧
      (inc_ref small (small_counted 2147483647) 8192).1.ref_count (get_pa_idx small 8192)
        = -2147483648 ∧
      (inc_ref small (small_counted 2147483647) 8192).2 ≠ 2147483647 + 1 := by
  have h0 : (small_counted 2147483647).ref_count (get_pa_idx small 8192) = 2147483647 := by
    simp [small_counted]
  have hw : wrap32 (2147483647 + 1) = -2147483648 := by decide
  rw [inc_ref_eq, h0, hw]
  exact ⟨rfl, rfl, by simp, by decide⟩

/-- C10, as the code has it: for an address `pa` whose slot holds an `int` `c`
above `INT_MIN`, `dec_ref(pa)` returns `c - 1`, the slot holds `c - 1`, every
other slot is unchanged, and so are the free list and memory; nothing checks
the count, so with `c = 0` it stores and returns `-1` like any other
value. -/
theorem dec_ref_spec (L : Layout) (s : State) (pa : Nat) (c : Int)
    (hc : s.ref_count (get_pa_idx L pa) = c) (hmin : INT_MIN < c) (hmax : c ≤ INT_MAX) :
    (dec_ref L s pa).2 = c - 1 ∧
      (dec_ref L s pa).1.ref_count (get_pa_idx L pa) = c - 1 ∧
      (∀ i, i ≠ get_pa_idx L pa → (dec_ref L s pa).1.ref_count i = s.ref_count i) ∧
      (dec_ref L s pa).1.freelist = s.freelist ∧ (dec_ref L s pa).1.mem = s.mem ∧
      (c = 0 → (dec_ref L s pa).2 = -1 ∧
        (dec_ref L s pa).1.ref_count (get_pa_idx L pa) = -1) := by
  subst hc
  have hw : wrap32 (s.ref_count (get_pa_idx L pa) - 1) = s.ref_count (get_pa_idx L pa) - 1 :=
    wrap32_of_range (by unfold INT_MIN at *; omega) (by unfold INT_MAX at *; omega)
  rw [dec_ref_eq, hw]
  refine ⟨rfl, Function.update_same _ _ _, ?_, rfl, rfl, ?_⟩
  · intro i hi
    exact Function.update_noteq hi _ _
  · intro h0
    simp [h0]

theorem dec_ref_spec_witness :
    small_init.ref_count (get_pa_idx small 8192) = 0 ∧ INT_MIN < 0 ∧ 0 ≤ INT_MAX ∧
      (dec_ref small small_init 8192).2 = 0 - 1 ∧
      (dec_ref small small_init 8192).1.ref_count (get_pa_idx small 8192) = 0 - 1 ∧
      (∀ i, i ≠ get_pa_idx small 8192 →
        (dec_ref small small_init 8192).1.ref_count i = small_init.ref_count i) ∧
      (dec_ref small small_init 8192).1.freelist = small_init.freelist ∧
      (dec_ref small small_init 8192).1.mem = small_init.mem ∧
      ((0 : Int) = 0 → (dec_ref small small_init 8192).2 = -1 ∧
        (dec_ref small small_init 8192).1.ref_count (get_pa_idx small 8192) = -1) :=
  ⟨by decide, by decide, by decide,
    dec_ref_spec small small_init 8192 0 (by decide) (by decide) (by decide)⟩

/-- C10 fails as stated: when the slot holds `INT_MIN = -2147483648` the `int`
difference `old - 1` overflows, and `dec_ref` stores and returns `2147483647`,
which is not `c - 1`. -/
theorem dec_ref_overflows :
    (small_counted (-2147483648)).ref_count (get_pa_idx small 8192) = -2147483648 ∧
      (dec_ref small (small_counted (-2147483648)) 8192).2 = 2147483647 ∧
      (dec_ref small (small_counted (-2147483648)) 8192).1.ref_count (get_pa_idx small 8192)
        = 2147483647 ∧
      (dec_ref small (small_counted (-2147483648)) 8192).2 ≠ -2147483648 - 1 := by
  have h0 : (small_counted (-2147483648)).ref_count (get_pa_idx small 8192) = -2147483648 := by
    simp [small_counted]
  have hw : wrap32 (-2147483648 - 1) = 2147483647 := by decide
  rw [dec_ref_eq, h0, hw]
  exact ⟨rfl, rfl, by simp, by decide⟩

/-! ## The page life cycle -/

theorem managed_page.valid {L : Layout} {a : Nat} (h : managed_page L a) : valid_page L a :=
  ⟨h.1, h.2.1, by have := h.2.2; unfold PGSIZE at this; omega⟩

theorem managed_page.lt {L : Layout} (hL : L.WF) {a : Nat} (h : managed_page L a) : a < U64 :=
  valid_page_lt hL h.valid

/-- Two managed pages with the same table index are the same page. -/
theorem managed_page.idx_inj {L : Layout} (hL : L.WF) {a b : Nat} (ha : managed_page L a)
    (hb : managed_page L b) (h : get_pa_idx L a = get_pa_idx L b) : a = b :=
  get_pa_idx_inj L ha.1 hb.1 (ha.lt hL) (hb.lt hL) h

theorem LifeInv.of_kinit {L : Layout} (hL : L.WF) {m : Nat → Nat} {s : State}
    (hk : kinit L (boot m) = Outcome.done s) : LifeInv L s (free_pages L) := by
  obtain ⟨hc, hz⟩ := kinit_done_spec L hL hk
  refine ⟨hc, ?_, fun i => by rw [hz]; unfold INT_MIN INT_MAX; omega,
    fun i hi => by rw [hz] at hi; omega⟩
  intro a
  rw [mem_free_pages L hL a]
  exact ⟨fun h => ⟨h, hz _⟩, fun h => h.1⟩

theorem LifeInv.after_kalloc {L : Layout} (hL : L.WF) {s : State} {l : List Nat}
    (hinv : LifeInv L s l) : ∃ k, LifeInv L (kalloc L s).1 k := by
  by_cases h0 : s.freelist = 0
  · rw [kalloc_null L s h0]
    exact ⟨l, hinv⟩
  · obtain ⟨hc, hmem, hnn, hpos⟩ := hinv
    cases l with
    | nil => exact absurd hc.1 h0
    | cons a t =>
      have e : s.freelist = a := hc.1.1
      have hnd := List.nodup_cons.mp (Chain.nodup _ _ hc.1)
      have hma := ((hmem a).mp (List.mem_cons_self _ _)).1
      rw [kalloc_page L s h0, e]
      refine ⟨t, hc.pop 5 _, ?_, ?_, ?_⟩
      · intro b
        show b ∈ t ↔ managed_page L b ∧
          Function.update s.ref_count (get_pa_idx L a) 1 (get_pa_idx L b) = 0
        constructor
        · intro hb
          have hb2 := (hmem b).mp (List.mem_cons_of_mem _ hb)
          have hne : get_pa_idx L b ≠ get_pa_idx L a := fun hi =>
            hnd.1 (by rw [← managed_page.idx_inj hL hb2.1 hma hi]; exact hb)
          rw [Function.update_noteq hne]
          exact hb2
        · rintro ⟨hb1, hb2⟩
          have hne : get_pa_idx L b ≠ get_pa_idx L a := by
            intro hi
            rw [hi, Function.update_same] at hb2
            omega
          rw [Function.update_noteq hne] at hb2
          rcases List.mem_cons.mp ((hmem b).mpr ⟨hb1, hb2⟩) with hba | hbt
          · exact absurd (by rw [hba]) hne
          · exact hbt
      · intro i
        show INT_MIN ≤ Function.update s.ref_count (get_pa_idx L a) 1 i ∧
          Function.update s.ref_count (get_pa_idx L a) 1 i ≤ INT_MAX
        by_cases hi : i = get_pa_idx L a
        · rw [hi, Function.update_same]; unfold INT_MIN INT_MAX; omega
        · rw [Function.update_noteq hi]; exact hnn i
      · intro i hi
        change 0 < Function.update s.ref_count (get_pa_idx L a) 1 i at hi
        by_cases hia : i = get_pa_idx L a
        · exact ⟨a, hma, hia.symm⟩
        · rw [Function.update_noteq hia] at hi
          exact hpos i hi

/-- Replacing a positive count by an `int` other than `0` keeps the life
cycle invariant. -/
theorem LifeInv.update_nonzero {L : Layout} {s : State} {l : List Nat} (i : Nat) (v : Int)
    (hinv : LifeInv L s l) (h1 : 1 ≤ s.ref_count i) (hv : v ≠ 0)
    (hr : INT_MIN ≤ v ∧ v ≤ INT_MAX) :
    LifeInv L { s with ref_count := Function.update s.ref_count i v } l := by
  obtain ⟨hc, hmem, hnn, hpos⟩ := hinv
  refine ⟨hc.of_mem_eq rfl rfl, ?_, ?_, ?_⟩
  · intro b
    show b ∈ l ↔ managed_page L b ∧ Function.update s.ref_count i v (get_pa_idx L b) = 0
    by_cases hb : get_pa_idx L b = i
    · rw [hb, Function.update_same]
      constructor
      · intro hbl
        have := ((hmem b).mp hbl).2
        rw [hb] at this
        omega
      · rintro ⟨_, h⟩
        exact absurd h hv
    · rw [Function.update_noteq hb]
      exact hmem b
  · intro j
    show INT_MIN ≤ Function.update s.ref_count i v j ∧ Function.update s.ref_count i v j ≤ INT_MAX
    by_cases hj : j = i
    · rw [hj, Function.update_same]; exact hr
    · rw [Function.update_noteq hj]; exact hnn j
  · intro j hj
    change 0 < Function.update s.ref_count i v j at hj
    by_cases hji : j = i
    · rw [hji]; exact hpos i (by omega)
    · rw [Function.update_noteq hji] at hj
      exact hpos j hj

theorem LifeInv.after_inc_ref {L : Layout} {s : State} {l : List Nat} (pa : Nat)
    (hinv : LifeInv L s l) (h1 : 1 ≤ s.ref_count (get_pa_idx L pa)) :
    LifeInv L (inc_ref L s pa).1 l := by
  rw [inc_ref_eq]
  have hr := (hinv.2.2.1 (get_pa_idx L pa)).2
  refine hinv.update_nonzero _ _ h1 ?_ (wrap32_range _)
  unfold wrap32
  unfold INT_MAX at hr
  omega

theorem LifeInv.after_kfree {L : Layout} (hL : L.WF) {s t : State} {l : List Nat} (pa : Nat)
    (hinv : LifeInv L s l) (h1 : 1 ≤ s.ref_count (get_pa_idx L pa))
    (hk : kfree L s pa = Outcome.done t) : ∃ k, LifeInv L t k := by
  have hr := (hinv.2.2.1 (get_pa_idx L pa)).2
  have hw : wrap32 (s.ref_count (get_pa_idx L pa) - 1) = s.ref_count (get_pa_idx L pa) - 1 :=
    wrap32_of_range (by unfold INT_MIN; omega) (by unfold INT_MAX at *; omega)
  by_cases hval : valid_page L pa
  · by_cases hsh : 1 < s.ref_count (get_pa_idx L pa)
    · rw [kfree_shared L s pa hval (by rw [hw]; omega)] at hk
      have e := Outcome.done_inj hk
      subst e
      exact ⟨l, hinv.update_nonzero _ _ h1 (by rw [hw]; omega) (wrap32_range _)⟩
    · rw [kfree_last L s pa hval (by omega) (by omega)] at hk
      have e := Outcome.done_inj hk
      subst e
      obtain ⟨hc, hmem, hnn, hpos⟩ := hinv
      obtain ⟨q, hq, hqi⟩ := hpos _ (show 0 < s.ref_count (get_pa_idx L pa) by omega)
      have hqpa : q = pa :=
        get_pa_idx_inj L hq.1 hval.1 (hq.lt hL) (valid_page_lt hL hval) hqi
      subst hqpa
      have hnew : q ∉ l := by
        intro hm
        have := ((hmem q).mp hm).2
        omega
      refine ⟨q :: l, hc.push 1 _ hval.1 (valid_page_pos hL hval) (valid_page_lt hL hval) hnew,
        ?_, ?_, ?_⟩
      · intro b
        show b ∈ q :: l ↔ managed_page L b ∧
          Function.update s.ref_count (get_pa_idx L q) 0 (get_pa_idx L b) = 0
        by_cases hb : get_pa_idx L b = get_pa_idx L q
        · rw [hb, Function.update_same]
          constructor
          · intro hbl
            rcases List.mem_cons.mp hbl with e | hbl2
            · rw [e]; exact ⟨hq, rfl⟩
            · have := ((hmem b).mp hbl2).2
              rw [hb] at this
              omega
          · rintro ⟨hb1, _⟩
            rw [managed_page.idx_inj hL hb1 hq hb]
            exact List.mem_cons_self _ _
        · rw [Function.update_noteq hb]
          constructor
          · intro hbl
            rcases List.mem_cons.mp hbl with e | hbl2
            · exact absurd (by rw [e]) hb
            · exact (hmem b).mp hbl2
          · intro h
            exact List.mem_cons_of_mem _ ((hmem b).mpr h)
      · intro j
        show INT_MIN ≤ Function.update s.ref_count (get_pa_idx L q) 0 j ∧
          Function.update s.ref_count (get_pa_idx L q) 0 j ≤ INT_MAX
        by_cases hj : j = get_pa_idx L q
        · rw [hj, Function.update_same]; unfold INT_MIN INT_MAX; omega
        · rw [Function.update_noteq hj]; exact hnn j
      · intro j hj
        change 0 < Function.update s.ref_count (get_pa_idx L q) 0 j at hj
        by_cases hji : j = get_pa_idx L q
        · rw [hji, Function.update_same] at hj
          omega
        · rw [Function.update_noteq hji] at hj
          exact hpos j hj
  · rw [kfree_invalid L s pa hval] at hk
    cases hk

theorem Lifecycle.lifeInv {L : Layout} (hL : L.WF) {s : State} (hr : Lifecycle L s) :
    ∃ l, LifeInv L s l := by
  induction hr with
  | init m s hk => exact ⟨_, LifeInv.of_kinit hL hk⟩
  | kalloc s _ ih =>
    obtain ⟨l, hl⟩ := ih
    exact hl.after_kalloc hL
  | inc_ref s pa _ h1 ih =>
    obtain ⟨l, hl⟩ := ih
    exact ⟨l, hl.after_inc_ref pa h1⟩
  | kfree s t pa _ h1 hk ih =>
    obtain ⟨l, hl⟩ := ih
    exact hl.after_kfree hL pa h1 hk

theorem BoundedLifecycle.lifecycle {L : Layout} {s : State} (hr : BoundedLifecycle L s) :
    Lifecycle L s := by
  induction hr with
  | init m s hk => exact Lifecycle.init m s hk
  | kalloc s _ ih => exact Lifecycle.kalloc s ih
  | inc_ref s pa _ h1 _ ih => exact Lifecycle.inc_ref s pa ih h1
  | kfree s t pa _ h1 hk ih => exact Lifecycle.kfree s t pa ih h1 hk

theorem kalloc_ref_count_nonneg (L : Layout) (s : State) (h : ∀ i, 0 ≤ s.ref_count i) :
    ∀ i, 0 ≤ (kalloc L s).1.ref_count i := by
  intro i
  by_cases h0 : s.freelist = 0
  · rw [kalloc_null L s h0]
    exact h i
  · rw [kalloc_page L s h0]
    show 0 ≤ Function.update s.ref_count (get_pa_idx L s.freelist) 1 i
    by_cases hi : i = get_pa_idx L s.freelist
    · rw [hi, Function.update_same]; norm_num
    · rw [Function.update_noteq hi]; exact h i

/-- While no `inc_ref` is made on `INT_MAX`, no count is ever negative. -/
theorem BoundedLifecycle.nonneg {L : Layout} (hL : L.WF) {s : State}
    (hr : BoundedLifecycle L s) : ∀ i, 0 ≤ s.ref_count i := by
  induction hr with
  | init m s hk =>
    intro i
    rw [(kinit_done_spec L hL hk).2 i]
  | kalloc s _ ih => exact kalloc_ref_count_nonneg L s ih
  | inc_ref s pa _ h1 h2 ih =>
    intro i
    rw [inc_ref_eq]
    show 0 ≤ Function.update s.ref_count (get_pa_idx L pa) _ i
    by_cases hi : i = get_pa_idx L pa
    · rw [hi, Function.update_same]
      unfold wrap32
      unfold INT_MAX at h2
      omega
    · rw [Function.update_noteq hi]; exact ih i
  | kfree s t pa hs h1 hk ih =>
    intro i
    obtain ⟨l, hl⟩ := hs.lifecycle.lifeInv hL
    have hr := (hl.2.2.1 (get_pa_idx L pa)).2
    by_cases hval : valid_page L pa
    · by_cases hsh : 0 < wrap32 (s.ref_count (get_pa_idx L pa) - 1)
      · rw [kfree_shared L s pa hval hsh] at hk
        have e := Outcome.done_inj hk
        subst e
        show 0 ≤ Function.update s.ref_count (get_pa_idx L pa) _ i
        by_cases hi : i = get_pa_idx L pa
        · rw [hi, Function.update_same]; omega
        · rw [Function.update_noteq hi]; exact ih i
      · rw [kfree_frees L s pa hval (by omega)] at hk
        have e := Outcome.done_inj hk
        subst e
        show 0 ≤ Function.update s.ref_count (get_pa_idx L pa) 0 i
        by_cases hi : i = get_pa_idx L pa
        · rw [hi, Function.update_same]
        · rw [Function.update_noteq hi]; exact ih i
    · rw [kfree_invalid L s pa hval] at hk
      cases hk

theorem inc_ref_count (L : Layout) (s : State) (pa : Nat) :
    (inc_ref L s pa).1.ref_count (get_pa_idx L pa)
      = wrap32 (s.ref_count (get_pa_idx L pa) + 1) := by
  rw [inc_ref_eq]
  show Function.update s.ref_count (get_pa_idx L pa) _ (get_pa_idx L pa) = _
  rw [Function.update_same]

/-- Calling `inc_ref` again and again on a referenced page stays within the
life cycle and adds one to the count each time, as long as the count fits. -/
theorem inc_ref_n_spec (L : Layout) (pa : Nat) :
    ∀ (n : Nat) (s : State), Lifecycle L s → 1 ≤ s.ref_count (get_pa_idx L pa) →
      s.ref_count (get_pa_idx L pa) + n ≤ INT_MAX →
      Lifecycle L (inc_ref_n L n s pa) ∧
        (inc_ref_n L n s pa).ref_count (get_pa_idx L pa) = s.ref_count (get_pa_idx L pa) + n
  | 0, s, hs, _, _ => by simpa [inc_ref_n] using hs
  | n + 1, s, hs, h1, hmax => by
    have hw : wrap32 (s.ref_count (get_pa_idx L pa) + 1) = s.ref_count (get_pa_idx L pa) + 1 :=
      wrap32_of_range (by unfold INT_MIN; omega) (by unfold INT_MAX at *; push_cast at hmax; omega)
    have hstep : (inc_ref L s pa).1.ref_count (get_pa_idx L pa)
        = s.ref_count (get_pa_idx L pa) + 1 := by
      rw [inc_ref_eq]
      show Function.update s.ref_count (get_pa_idx L pa) _ (get_pa_idx L pa) = _
      rw [Function.update_same, hw]
    obtain ⟨h2, h3⟩ := inc_ref_n_spec L pa n (inc_ref L s pa).1 (Lifecycle.inc_ref s pa hs h1)
      (by rw [hstep]; omega) (by rw [hstep]; push_cast at hmax; omega)
    refine ⟨h2, ?_⟩
    show (inc_ref_n L n (inc_ref L s pa).1 pa).ref_count (get_pa_idx L pa) = _
    rw [h3, hstep]
    push_cast
    ring

/-! ## The calls made by `freerange` -/

theorem through_first_invalid_of_valid (L : Layout) :
    ∀ l : List Nat, (∀ a ∈ l, valid_page L a) → through_first_invalid L l = l
  | [], _ => rfl
  | a :: t, h => by
    simp only [through_first_invalid, if_pos (h a (List.mem_cons_self _ _))]
    rw [through_first_invalid_of_valid L t (fun b hb => h b (List.mem_cons_of_mem _ hb))]

theorem through_first_invalid_initial (L : Layout) :
    ∀ l : List Nat, through_first_invalid L l <+: l
  | [] => List.prefix_refl _
  | a :: t => by
    simp only [through_first_invalid]
    split
    · exact (List.prefix_cons_inj a).mpr (through_first_invalid_initial L t)
    · exact ⟨t, rfl⟩

/-- The instrumented loop has the outcome of the loop of `freerange`, whatever
the arguments. -/
theorem freerange_loop_calls_fst (L : Layout) (pa_end : Nat) :
    ∀ (n : Nat) (s : State) (p : Nat),
      (freerange_loop_calls L pa_end n s p).1 = freerange_loop L pa_end n s p
  | 0, s, p => rfl
  | n + 1, s, p => by
    rw [freerange_loop_calls, freerange_loop]
    split
    · cases hk : kfree L s p with
      | done t => exact freerange_loop_calls_fst L pa_end n t _
      | panicked t => rfl
      | running t => rfl
    · rfl

/-- As long as the pointer cannot wrap, the calls of the loop are the whole
pages from `p` on, through the first one that `kfree` rejects, and the loop
comes to an end within the rounds it is given. -/
theorem freerange_loop_calls_spec (L : Layout) (pa_end : Nat) (he : pa_end + PGSIZE < U64) :
    ∀ (n fuel p : Nat) (s : State), n = (pa_end - p) / PGSIZE → n < fuel → p + PGSIZE < U64 →
      (freerange_loop_calls L pa_end fuel s p).2 = through_first_invalid L (pages p n) ∧
      (∃ t, freerange_loop L pa_end fuel s p = Outcome.done t ∨
        freerange_loop L pa_end fuel s p = Outcome.panicked t)
  | _, 0, _, _, _, hf, _ => by omega
  | 0, fuel + 1, p, s, hn, _, hp => by
    have hm : (p + PGSIZE) % U64 = p + PGSIZE := Nat.mod_eq_of_lt hp
    rw [freerange_loop_calls, freerange_loop, hm, if_neg (by unfold PGSIZE at *; omega),
      if_neg (by unfold PGSIZE at *; omega)]
    exact ⟨rfl, s, Or.inl rfl⟩
  | n + 1, fuel + 1, p, s, hn, hf, hp => by
    have hm : (p + PGSIZE) % U64 = p + PGSIZE := Nat.mod_eq_of_lt hp
    have hle : p + PGSIZE ≤ pa_end := by unfold PGSIZE at *; omega
    rw [freerange_loop_calls, freerange_loop, hm, if_pos hle, if_pos hle]
    by_cases hv : valid_page L p
    · obtain ⟨t, ht⟩ := kfree_returns_of_valid L s p hv
      obtain ⟨h2, h3⟩ := freerange_loop_calls_spec L pa_end he n fuel (p + PGSIZE) t
        (by unfold PGSIZE at *; omega) (by omega) (by omega)
      rw [ht]
      simp only [pages, through_first_invalid, if_pos hv]
      exact ⟨by rw [h2], h3⟩
    · rw [kfree_invalid L s p hv]
      simp only [pages, through_first_invalid, if_neg hv]
      exact ⟨trivial, s, Or.inr rfl⟩

theorem freerange_returns_of_valid (L : Layout) (pa_end : Nat) (he : pa_end + PGSIZE < U64) :
    ∀ (n fuel p : Nat) (s : State), n = (pa_end - p) / PGSIZE → n < fuel → p + PGSIZE < U64 →
      (∀ a ∈ pages p n, valid_page L a) → ∃ t, freerange_loop L pa_end fuel s p = Outcome.done t
  | _, 0, _, _, _, hf, _, _ => by omega
  | 0, fuel + 1, p, s, hn, _, hp, _ => by
    have hm : (p + PGSIZE) % U64 = p + PGSIZE := Nat.mod_eq_of_lt hp
    rw [freerange_loop, hm, if_neg (by unfold PGSIZE at *; omega)]
    exact ⟨s, rfl⟩
  | n + 1, fuel + 1, p, s, hn, hf, hp, hv => by
    have hm : (p + PGSIZE) % U64 = p + PGSIZE := Nat.mod_eq_of_lt hp
    have hle : p + PGSIZE ≤ pa_end := by unfold PGSIZE at *; omega
    obtain ⟨t, ht⟩ := kfree_returns_of_valid L s p (hv p (List.mem_cons_self _ _))
    rw [freerange_loop, hm, if_pos hle, ht]
    exact freerange_returns_of_valid L pa_end he n fuel (p + PGSIZE) t
      (by unfold PGSIZE at *; omega) (by omega) (by omega)
      (fun a ha => hv a (List.mem_cons_of_mem _ ha))

/-- The rounds given to the loop are more than the whole pages of any range
of addresses. -/
theorem rounds_suffice (pa_end p : Nat) (he : pa_end + PGSIZE < U64) :
    (pa_end - p) / PGSIZE < ROUNDS := by
  rw [ROUNDS_eq]
  unfold PGSIZE U64 at *
  omega

/-- The rounds given to the loop are enough: with `end` above `0` the loop
comes to an end within them, whatever its arguments, because the pointer
reaches the address `0`, which `kfree` rejects, before it repeats. -/
theorem freerange_loop_ends (L : Layout) (h0 : 0 < L.kernel_end) (pa_end : Nat) :
    ∀ (n fuel p : Nat) (s : State), p % PGSIZE = 0 → p < U64 →
      n = (U64 - p) / PGSIZE % (U64 / PGSIZE) → n < fuel →
      ∀ t, freerange_loop L pa_end fuel s p ≠ Outcome.running t
  | _, 0, _, _, _, _, _, hf => by omega
  | n, fuel + 1, p, s, hp, hlt, hn, hf => by
    intro t
    rw [freerange_loop]
    split
    · by_cases hv : valid_page L p
      · obtain ⟨u, hu⟩ := kfree_returns_of_valid L s p hv
        rw [hu]
        have hpos : 0 < p := by
          unfold valid_page at hv
          omega
        cases n with
        | zero =>
          unfold PGSIZE U64 at *
          omega
        | succ m =>
          exact freerange_loop_ends L h0 pa_end m fuel ((p + PGSIZE) % U64) u
            (by unfold PGSIZE U64 at *; omega) (Nat.mod_lt _ (by unfold U64; norm_num))
            (by unfold PGSIZE U64 at *; omega) (by omega) t
      · rw [kfree_invalid L s p hv]
        intro h
        cases h
    · intro h
      cases h

theorem freerange_ends (L : Layout) (h0 : 0 < L.kernel_end) (s : State) (pa_start pa_end : Nat) :
    ∀ t, freerange L s pa_start pa_end ≠ Outcome.running t := by
  unfold freerange
  refine freerange_loop_ends L h0 pa_end _ ROUNDS (PGROUNDUP pa_start) s ?_ ?_ rfl ?_
  · unfold PGROUNDUP
    exact Nat.mul_mod_left _ _
  · unfold PGROUNDUP
    unfold PGSIZE U64
    omega
  · rw [ROUNDS_eq]
    unfold PGSIZE U64
    omega

/-- The loop is still running after `n` rounds exactly when each of its first
`n` pointers passes the loop test and the validation of `kfree`. -/
theorem freerange_loop_running_iff (L : Layout) (pa_end : Nat) :
    ∀ (n : Nat) (s : State) (p : Nat), p < U64 →
      ((∃ t, freerange_loop L pa_end n s p = Outcome.running t) ↔
        ∀ k, k < n → ((p + k * PGSIZE) % U64 + PGSIZE) % U64 ≤ pa_end ∧
          valid_page L ((p + k * PGSIZE) % U64))
  | 0, s, p, _ => by
    rw [freerange_loop]
    exact ⟨fun _ k hk => absurd hk (Nat.not_lt_zero k), fun _ => ⟨s, rfl⟩⟩
  | n + 1, s, p, hp => by
    have ih := fun u => freerange_loop_running_iff L pa_end n u ((p + PGSIZE) % U64)
      (Nat.mod_lt _ (by unfold U64; norm_num))
    have hshift : ∀ k, (((p + PGSIZE) % U64 + k * PGSIZE) % U64) = (p + (k + 1) * PGSIZE) % U64 := by
      intro k
      unfold PGSIZE U64
      omega
    have hzero : (p + 0 * PGSIZE) % U64 = p := by
      rw [Nat.zero_mul, Nat.add_zero]
      exact Nat.mod_eq_of_lt hp
    rw [freerange_loop]
    constructor
    · rintro ⟨t, ht⟩
      by_cases hg : (p + PGSIZE) % U64 ≤ pa_end
      · rw [if_pos hg] at ht
        by_cases hv : valid_page L p
        · obtain ⟨u, hu⟩ := kfree_returns_of_valid L s p hv
          rw [hu] at ht
          have h2 := (ih u).mp ⟨t, ht⟩
          intro k hk
          cases k with
          | zero =>
            rw [hzero]
            exact ⟨hg, hv⟩
          | succ j =>
            have := h2 j (by omega)
            rw [hshift j] at this
            exact this
        · rw [kfree_invalid L s p hv] at ht
          cases ht
      · rw [if_neg hg] at ht
        cases ht
    · intro h
      have h0 := h 0 (by omega)
      rw [hzero] at h0
      obtain ⟨u, hu⟩ := kfree_returns_of_valid L s p h0.2
      rw [if_pos h0.1, hu]
      refine (ih u).mpr ?_
      intro k hk
      rw [hshift k]
      exact h (k + 1) (by omega)

/-- The rounds are enough in every case: a run of `freerange` that is still
going after `ROUNDS` rounds is still going after any number of rounds, because
by then its pointer has taken every value it can take. -/
theorem freerange_running_forever (L : Layout) (s t : State) (pa_start pa_end : Nat)
    (h : freerange L s pa_start pa_end = Outcome.running t) :
    ∀ n, ∃ u, freerange_loop L pa_end n s (PGROUNDUP pa_start) = Outcome.running u := by
  have hp : PGROUNDUP pa_start < U64 := by
    unfold PGROUNDUP
    unfold PGSIZE U64
    omega
  unfold freerange at h
  have h1 := (freerange_loop_running_iff L pa_end ROUNDS s _ hp).mp ⟨t, h⟩
  intro n
  refine (freerange_loop_running_iff L pa_end n s _ hp).mpr ?_
  intro k _
  have h2 := h1 (k % (U64 / PGSIZE)) (by
    rw [ROUNDS_eq]
    exact Nat.lt_succ_of_lt (Nat.mod_lt _ (by unfold U64 PGSIZE; norm_num)))
  have e : (PGROUNDUP pa_start + k % (U64 / PGSIZE) * PGSIZE) % U64
      = (PGROUNDUP pa_start + k * PGSIZE) % U64 := by
    unfold PGSIZE U64
    omega
  rw [e] at h2
  exact h2

theorem mem_freerange_pages (pa_start pa_end a : Nat) :
    a ∈ freerange_pages pa_start pa_end ↔
      ∃ k, a = PGROUNDUP pa_start + 4096 * k ∧ PGROUNDUP pa_start + 4096 * (k + 1) ≤ pa_end := by
  unfold freerange_pages
  rw [mem_pages]
  generalize PGROUNDUP pa_start = r
  unfold PGSIZE
  constructor
  · rintro ⟨k, hk, e⟩
    exact ⟨k, by omega, by omega⟩
  · rintro ⟨k, e, hk⟩
    exact ⟨k, by omega, by omega⟩

/-! ## The claims, continued -/

/-- C11, as the code has it: in every state reached from `kinit()` by
`kalloc()`, by `inc_ref` on addresses whose count is at least `1`, and by
`kfree` on addresses whose count is at least `1`, the free list is a chain
without repetition, and every page of the managed range is off the chain when
its count is positive and on the chain when its count is `0`; the count of
every such page is not negative as long as no `inc_ref` was made on a count
of `INT_MAX`. -/
theorem lifecycle_invariant (L : Layout) (hL : L.WF) (s : State) (hr : Lifecycle L s) :
    ∃ l, FreeChain s l ∧ l.Nodup ∧
      (∀ a, a % 4096 = 0 → L.kernel_end ≤ a → a + 4096 ≤ L.PHYSTOP →
        (0 < s.ref_count (get_pa_idx L a) → a ∉ l) ∧
        (s.ref_count (get_pa_idx L a) = 0 → a ∈ l)) ∧
      (BoundedLifecycle L s →
        ∀ a, a % 4096 = 0 → L.kernel_end ≤ a → a + 4096 ≤ L.PHYSTOP →
          0 ≤ s.ref_count (get_pa_idx L a)) := by
  obtain ⟨l, hc, hmem, _, _⟩ := hr.lifeInv hL
  refine ⟨l, hc, Chain.nodup _ _ hc.1, ?_, fun hb a _ _ _ => hb.nonneg hL _⟩
  intro a h1 h2 h3
  refine ⟨?_, fun h0 => (hmem a).mpr ⟨⟨h1, h2, h3⟩, h0⟩⟩
  intro hpos hin
  have := ((hmem a).mp hin).2
  omega

theorem lifecycle_invariant_witness :
    small.WF ∧ Lifecycle small (kalloc small small_init).1 ∧
      BoundedLifecycle small (kalloc small small_init).1 ∧
      ∃ l, FreeChain (kalloc small small_init).1 l ∧ l.Nodup ∧
        (∀ a, a % 4096 = 0 → small.kernel_end ≤ a → a + 4096 ≤ small.PHYSTOP →
          (0 < (kalloc small small_init).1.ref_count (get_pa_idx small a) → a ∉ l) ∧
          ((kalloc small small_init).1.ref_count (get_pa_idx small a) = 0 → a ∈ l)) ∧
        (BoundedLifecycle small (kalloc small small_init).1 →
          ∀ a, a % 4096 = 0 → small.kernel_end ≤ a → a + 4096 ≤ small.PHYSTOP →
            0 ≤ (kalloc small small_init).1.ref_count (get_pa_idx small a)) :=
  ⟨by decide, Lifecycle.kalloc _ (Lifecycle.init _ _ kinit_small),
    BoundedLifecycle.kalloc _ (BoundedLifecycle.init _ _ kinit_small),
    lifecycle_invariant small (by decide) _
      (Lifecycle.kalloc _ (Lifecycle.init _ _ kinit_small))⟩

/-- C11 fails as stated: on `small`, `kinit()`, one `kalloc()` (which returns
`12288` with count `1`) and `2147483646` calls of `inc_ref(12288)`, each on a
count that is at least `1`, bring the count of the managed page `12288` to
`INT_MAX`; one more `inc_ref(12288)`, again on a count that is at least `1`,
stores `INT_MAX + 1` wrapped to 32 bits, so the state is one of those the
claim speaks of and the count of the page is `-2147483648`. -/
theorem lifecycle_count_overflows :
    Lifecycle small
        (inc_ref small (inc_ref_n small 2147483646 (kalloc small small_init).1 12288) 12288).1 ∧
      12288 % 4096 = 0 ∧ small.kernel_end ≤ 12288 ∧ 12288 + 4096 ≤ small.PHYSTOP ∧
      (inc_ref_n small 2147483646 (kalloc small small_init).1 12288).ref_count
        (get_pa_idx small 12288) = 2147483647 ∧
      (inc_ref small (inc_ref_n small 2147483646 (kalloc small small_init).1 12288)
        12288).1.ref_count (get_pa_idx small 12288) = -2147483648 ∧
      ¬ 0 ≤ (inc_ref small (inc_ref_n small 2147483646 (kalloc small small_init).1 12288)
        12288).1.ref_count (get_pa_idx small 12288) := by
  have h1 : (kalloc small small_init).1.ref_count (get_pa_idx small 12288) = 1 := by decide
  have hw : wrap32 (2147483647 + 1) = -2147483648 := by unfold wrap32; norm_num
  obtain ⟨h2, h3⟩ := inc_ref_n_spec small 12288 2147483646 (kalloc small small_init).1
    (Lifecycle.kalloc _ (Lifecycle.init _ _ kinit_small)) (by rw [h1])
    (by rw [h1]; unfold INT_MAX; norm_num)
  rw [h1] at h3
  norm_num at h3
  have h5 : (inc_ref small (inc_ref_n small 2147483646 (kalloc small small_init).1 12288)
      12288).1.ref_count (get_pa_idx small 12288) = -2147483648 := by
    rw [inc_ref_count, h3, hw]
  refine ⟨Lifecycle.inc_ref _ _ h2 (by rw [h3]; norm_num), by decide, by decide, by decide,
    h3, h5, ?_⟩
  rw [h5]
  norm_num

/-- C13, as the code has it: as long as no pointer sum of the loop wraps
(`r + 4096 < 2^64` for `r` the rounded start, and `pa_end + 4096 < 2^64`),
`freerange(pa_start, pa_end)` calls `kfree` on the addresses `r + 4096 * k`
with `r + 4096 * (k + 1) <= pa_end`, in ascending order and once each,
through the first address on which `kfree` panics; it calls `kfree` on no
other address, comes to an end, and when every one of these addresses passes
the validation of `kfree` it calls `kfree` on all of them and returns. The
rounded start `r` is a multiple of `4096` with `pa_start <= r < pa_start +
4096` whenever `pa_start + 4096 <= 2^64`. -/
theorem freerange_calls_spec (L : Layout) (s : State) (pa_start pa_end : Nat)
    (hr : PGROUNDUP pa_start + 4096 < 2 ^ 64) (he : pa_end + 4096 < 2 ^ 64) :
    (pa_start + 4096 ≤ 2 ^ 64 →
        PGROUNDUP pa_start % 4096 = 0 ∧ pa_start ≤ PGROUNDUP pa_start ∧
          PGROUNDUP pa_start < pa_start + 4096) ∧
      (freerange_calls L s pa_start pa_end).1 = freerange L s pa_start pa_end ∧
      (freerange_calls L s pa_start pa_end).2
        = through_first_invalid L (freerange_pages pa_start pa_end) ∧
      (freerange_calls L s pa_start pa_end).2 <+: freerange_pages pa_start pa_end ∧
      (freerange_pages pa_start pa_end).Pairwise (· < ·) ∧
      (∀ a, a ∈ freerange_pages pa_start pa_end ↔
        ∃ k, a = PGROUNDUP pa_start + 4096 * k ∧
          PGROUNDUP pa_start + 4096 * (k + 1) ≤ pa_end) ∧
      (∃ t, freerange L s pa_start pa_end = Outcome.done t ∨
        freerange L s pa_start pa_end = Outcome.panicked t) ∧
      ((∀ a ∈ freerange_pages pa_start pa_end, valid_page L a) →
        (freerange_calls L s pa_start pa_end).2 = freerange_pages pa_start pa_end ∧
          ∃ t, freerange L s pa_start pa_end = Outcome.done t) := by
  have he2 : pa_end + PGSIZE < U64 := by unfold PGSIZE U64; exact he
  have hr2 : PGROUNDUP pa_start + PGSIZE < U64 := by unfold PGSIZE U64; exact hr
  obtain ⟨h2, h3⟩ := freerange_loop_calls_spec L pa_end he2 _ ROUNDS (PGROUNDUP pa_start) s rfl
    (rounds_suffice pa_end _ he2) hr2
  refine ⟨fun h => PGROUNDUP_spec pa_start h, freerange_loop_calls_fst L pa_end _ _ _, h2, ?_,
    pages_pairwise_lt _ _, mem_freerange_pages pa_start pa_end, h3, ?_⟩
  · unfold freerange_calls
    rw [h2]
    exact through_first_invalid_initial L _
  · intro hv
    constructor
    · unfold freerange_calls
      rw [h2]
      exact through_first_invalid_of_valid L _ hv
    · exact freerange_returns_of_valid L pa_end he2 _ ROUNDS (PGROUNDUP pa_start) s rfl
        (rounds_suffice pa_end _ he2) hr2 hv

theorem freerange_calls_spec_witness :
    PGROUNDUP 5000 + 4096 < 2 ^ 64 ∧ 16384 + 4096 < 2 ^ 64 ∧
      (∀ a ∈ freerange_pages 5000 16384, valid_page small a) ∧
      (5000 + 4096 ≤ 2 ^ 64 →
        PGROUNDUP 5000 % 4096 = 0 ∧ 5000 ≤ PGROUNDUP 5000 ∧ PGROUNDUP 5000 < 5000 + 4096) ∧
      (freerange_calls small (boot fun _ => 0) 5000 16384).1
        = freerange small (boot fun _ => 0) 5000 16384 ∧
      (freerange_calls small (boot fun _ => 0) 5000 16384).2
        = through_first_invalid small (freerange_pages 5000 16384) ∧
      (freerange_calls small (boot fun _ => 0) 5000 16384).2 <+: freerange_pages 5000 16384 ∧
      (freerange_pages 5000 16384).Pairwise (· < ·) ∧
      (∀ a, a ∈ freerange_pages 5000 16384 ↔
        ∃ k, a = PGROUNDUP 5000 + 4096 * k ∧ PGROUNDUP 5000 + 4096 * (k + 1) ≤ 16384) ∧
      (∃ t, freerange small (boot fun _ => 0) 5000 16384 = Outcome.done t ∨
        freerange small (boot fun _ => 0) 5000 16384 = Outcome.panicked t) ∧
      ((∀ a ∈ freerange_pages 5000 16384, valid_page small a) →
        (freerange_calls small (boot fun _ => 0) 5000 16384).2 = freerange_pages 5000 16384 ∧
          ∃ t, freerange small (boot fun _ => 0) 5000 16384 = Outcome.done t) :=
  ⟨by decide, by decide, by decide,
    freerange_calls_spec small (boot fun _ => 0) 5000 16384 (by decide) (by decide)⟩

/-- C13 fails as stated: on `small`, `freerange(4096, 16384)` calls `kfree` on
`4096`, which lies below `end`; `kfree` panics, and the whole page `8192`
(it is `r + 4096 * 1` with `r + 4096 * 2 <= pa_end`) is never passed to
`kfree`. -/
theorem freerange_stops_at_panic :
    PGROUNDUP 4096 = 4096 ∧ 8192 = PGROUNDUP 4096 + 4096 * 1 ∧
      PGROUNDUP 4096 + 4096 * (1 + 1) ≤ 16384 ∧
      (freerange_calls small small_init 4096 16384).2 = [4096] ∧
      8192 ∉ (freerange_calls small small_init 4096 16384).2 ∧
      freerange small small_init 4096 16384 = Outcome.panicked small_init := by
  have e : PGROUNDUP 4096 = 4096 := by decide
  have hc : (freerange_calls small small_init 4096 16384).2 = [4096] := by
    unfold freerange_calls
    rw [e, ROUNDS_eq, freerange_loop_calls, if_pos (by decide), kfree_invalid _ _ _ (by decide)]
  refine ⟨e, by decide, by decide, hc, by rw [hc]; decide, ?_⟩
  unfold freerange
  rw [e, ROUNDS_eq, freerange_loop, if_pos (by decide), kfree_invalid _ _ _ (by decide)]

/-- Where the pointer sum wraps, the loop goes on past `pa_end`: with the
last page of the address space inside the managed range,
`freerange(2^64 - 8192, 2^64 - 4096)` has one whole page to release, yet it
calls `kfree` on that page, on the page `2^64 - 4096` after it, and on the
address `0`, where `kfree` panics. -/
theorem freerange_wraps_at_top (s : State) :
    freerange_pages 18446744073709543424 18446744073709547520 = [18446744073709543424] ∧
      (freerange_calls top s 18446744073709543424 18446744073709547520).2
        = [18446744073709543424, 18446744073709547520, 0] := by
  have e : PGROUNDUP 18446744073709543424 = 18446744073709543424 := by decide
  refine ⟨by decide, ?_⟩
  obtain ⟨t1, h1⟩ := kfree_returns_of_valid top s 18446744073709543424 (by decide)
  obtain ⟨t2, h2⟩ := kfree_returns_of_valid top t1 18446744073709547520 (by decide)
  have m1 : (18446744073709543424 + PGSIZE) % U64 = 18446744073709547520 := by decide
  have m2 : (18446744073709547520 + PGSIZE) % U64 = 0 := by decide
  have hR : ROUNDS = 4503599627370494 + 1 + 1 + 1 := by rw [ROUNDS_eq]; decide
  unfold freerange_calls
  rw [e, hR, freerange_loop_calls, m1, if_pos (by decide), h1]
  simp only []
  rw [freerange_loop_calls, m2, if_pos (by decide), h2]
  simp only []
  rw [freerange_loop_calls, if_pos (by decide), kfree_invalid _ _ _ (by decide)]

/-- C14: a second release is not detected: for a valid address `pa` whose
count is already `0`, whether or not `pa` is on the free chain, `kfree(pa)`
does not panic; it returns with the count of `pa` at `0`, the head pointer at
`pa` and the link of `pa` at the old head, and the next `kalloc()` returns
`pa`. -/
theorem double_release_undetected (L : Layout) (hL : L.WF) (s : State) (pa : Nat)
    (hv : valid_page L pa) (h0 : s.ref_count (get_pa_idx L pa) = 0) :
    ∃ t, kfree L s pa = Outcome.done t ∧ t.ref_count (get_pa_idx L pa) = 0 ∧
      t.freelist = pa ∧ (s.freelist < U64 → loadPtr t.mem pa = s.freelist) ∧
      (kalloc L t).2 = pa := by
  refine ⟨_, kfree_last L s pa hv (by omega) (by omega), Function.update_same _ _ _, rfl,
    ?_, ?_⟩
  · intro hlt
    exact loadPtr_storePtr_same _ _ _ hlt
  · rw [kalloc_page L _ (Nat.pos_iff_ne_zero.mp (valid_page_pos hL hv))]

theorem double_release_undetected_witness :
    small.WF ∧ valid_page small 8192 ∧ small_init.ref_count (get_pa_idx small 8192) = 0 ∧
      8192 ∈ [12288, 8192] ∧ FreeChain small_init [12288, 8192] ∧
      ∃ t, kfree small small_init 8192 = Outcome.done t ∧
        t.ref_count (get_pa_idx small 8192) = 0 ∧
        t.freelist = 8192 ∧ (small_init.freelist < U64 → loadPtr t.mem 8192 = small_init.freelist) ∧
        (kalloc small t).2 = 8192 :=
  ⟨by decide, by decide, by decide, by decide, by decide,
    double_release_undetected small (by decide) small_init 8192 (by decide) (by decide)⟩

/-- C15: `get_pa_idx` identifies the page: with `KERNBASE` page-aligned, two
addresses in `[KERNBASE, PHYSTOP)` have the same index exactly when they lie
in the same 4096-byte page; distinct page-aligned addresses have distinct
indices; and, given `KERNBASE <= end` and `PHYSTOP - KERNBASE` a multiple of
`4096`, every address that passes the validation of `kfree` has an index
below `NUM_PYS_PAGES`, as has the head of the free list that `kalloc` indexes
with in every reachable state. -/
theorem get_pa_idx_identifies_page (L : Layout) (hL : L.WF) :
    (L.KERNBASE % 4096 = 0 →
        ∀ a b, L.KERNBASE ≤ a → a < L.PHYSTOP → L.KERNBASE ≤ b → b < L.PHYSTOP →
          (get_pa_idx L a = get_pa_idx L b ↔ a / 4096 = b / 4096)) ∧
      (∀ a b, L.KERNBASE ≤ a → a < L.PHYSTOP → L.KERNBASE ≤ b → b < L.PHYSTOP →
        a % 4096 = 0 → b % 4096 = 0 → a ≠ b → get_pa_idx L a ≠ get_pa_idx L b) ∧
      (L.KERNBASE ≤ L.kernel_end → (L.PHYSTOP - L.KERNBASE) % 4096 = 0 →
        (∀ pa, valid_page L pa → get_pa_idx L pa < NUM_PYS_PAGES L) ∧
        (∀ s, Reachable L s → s.freelist ≠ 0 →
          get_pa_idx L s.freelist < NUM_PYS_PAGES L)) := by
  have hU := hL.2.2
  have hidx : L.KERNBASE ≤ L.kernel_end → (L.PHYSTOP - L.KERNBASE) % 4096 = 0 →
      ∀ pa, valid_page L pa → get_pa_idx L pa < NUM_PYS_PAGES L := by
    intro hK hN pa hv
    obtain ⟨_, h2, h3⟩ := hv
    unfold get_pa_idx NUM_PYS_PAGES sub64
    unfold PGSIZE U64 at *
    norm_num at *
    have e1 : L.KERNBASE % 18446744073709551616 = L.KERNBASE := Nat.mod_eq_of_lt (by omega)
    rw [e1]
    have e2 : (pa + 18446744073709551616 - L.KERNBASE) % 18446744073709551616
        = pa - L.KERNBASE := by omega
    have e3 : (L.PHYSTOP + 18446744073709551616 - L.KERNBASE) % 18446744073709551616
        = L.PHYSTOP - L.KERNBASE := by omega
    rw [e2, e3]
    omega
  refine ⟨?_, ?_, fun hK hN => ⟨hidx hK hN, ?_⟩⟩
  · intro hK a b ha1 ha2 hb1 hb2
    unfold get_pa_idx sub64
    unfold PGSIZE U64 at *
    norm_num at *
    have e1 : L.KERNBASE % 18446744073709551616 = L.KERNBASE := Nat.mod_eq_of_lt (by omega)
    rw [e1]
    have e2 : (a + 18446744073709551616 - L.KERNBASE) % 18446744073709551616
        = a - L.KERNBASE := by omega
    have e3 : (b + 18446744073709551616 - L.KERNBASE) % 18446744073709551616
        = b - L.KERNBASE := by omega
    rw [e2, e3]
    omega
  · intro a b _ ha2 _ hb2 ha hb hab hi
    exact hab (get_pa_idx_inj L ha hb (by unfold PGSIZE U64 at *; omega)
      (by unfold PGSIZE U64 at *; omega) hi)
  · intro s hr hne
    exact hidx hK hN _ ((hr.poolInv hL).head_valid hne)

theorem get_pa_idx_identifies_page_witness :
    small.WF ∧
      (small.KERNBASE % 4096 = 0 →
        ∀ a b, small.KERNBASE ≤ a → a < small.PHYSTOP → small.KERNBASE ≤ b → b < small.PHYSTOP →
          (get_pa_idx small a = get_pa_idx small b ↔ a / 4096 = b / 4096)) ∧
      (∀ a b, small.KERNBASE ≤ a → a < small.PHYSTOP → small.KERNBASE ≤ b → b < small.PHYSTOP →
        a % 4096 = 0 → b % 4096 = 0 → a ≠ b → get_pa_idx small a ≠ get_pa_idx small b) ∧
      (small.KERNBASE ≤ small.kernel_end → (small.PHYSTOP - small.KERNBASE) % 4096 = 0 →
        (∀ pa, valid_page small pa → get_pa_idx small pa < NUM_PYS_PAGES small) ∧
        (∀ s, Reachable small s → s.freelist ≠ 0 →
          get_pa_idx small s.freelist < NUM_PYS_PAGES small)) :=
  ⟨by decide, get_pa_idx_identifies_page small (by decide)⟩

/-- C16: after a successful `kalloc()` every one of the 4096 bytes of the
returned page holds the fill value `5`, which is not zero; the first word of
the page, which held the free-list link, reads as that pattern too; and `5`
differs from the value `1` that `kfree` leaves in the bytes of a page it
frees, that is, a valid page for which `dec_ref` returns no positive value
(all bytes but the link word, which `kfree` writes afterwards). -/
theorem kalloc_fills_page (L : Layout) (s : State) (h : (kalloc L s).2 ≠ 0) :
    (∀ a, (kalloc L s).2 ≤ a → a < (kalloc L s).2 + 4096 → (kalloc L s).1.mem a = 5) ∧
      loadPtr (kalloc L s).1.mem (kalloc L s).2 = FILL5_PTR ∧
      (5 : Nat) ≠ 0 ∧ (5 : Nat) ≠ 1 ∧
      ∀ (u t : State) (pa : Nat), valid_page L pa → (dec_ref L u pa).2 ≤ 0 →
        kfree L u pa = Outcome.done t →
        ∀ a, pa + 8 ≤ a → a < pa + 4096 → t.mem a = 1 := by
  have hne : s.freelist ≠ 0 := by
    intro h0
    rw [kalloc_null L s h0] at h
    exact h rfl
  rw [kalloc_page L s hne]
  refine ⟨?_, ?_, by norm_num, by norm_num, ?_⟩
  · intro a h1 h2
    show memset s.mem s.freelist 5 PGSIZE a = 5
    unfold memset PGSIZE
    rw [if_pos ⟨h1, h2⟩]
  · show loadPtr (memset s.mem s.freelist 5 PGSIZE) s.freelist = FILL5_PTR
    simp [loadPtr, memset, PGSIZE, FILL5_PTR]
  · intro u t pa hv hc hk a h1 h2
    rw [dec_ref_eq] at hc
    rw [kfree_frees L u pa hv hc] at hk
    have e := Outcome.done_inj hk
    subst e
    show storePtr (memset u.mem pa 1 PGSIZE) pa u.freelist a = 1
    unfold storePtr memset PGSIZE
    rw [if_neg (by omega), if_pos ⟨by omega, h2⟩]

theorem kalloc_fills_page_witness :
    (kalloc small small_init).2 ≠ 0 ∧
      valid_page small 8192 ∧ (dec_ref small small_owned 8192).2 ≤ 0 ∧
      (∃ t, kfree small small_owned 8192 = Outcome.done t) ∧
      (∀ a, (kalloc small small_init).2 ≤ a → a < (kalloc small small_init).2 + 4096 →
        (kalloc small small_init).1.mem a = 5) ∧
      loadPtr (kalloc small small_init).1.mem (kalloc small small_init).2 = FILL5_PTR ∧
      (5 : Nat) ≠ 0 ∧ (5 : Nat) ≠ 1 ∧
      ∀ (u t : State) (pa : Nat), valid_page small pa → (dec_ref small u pa).2 ≤ 0 →
        kfree small u pa = Outcome.done t →
        ∀ a, pa + 8 ≤ a → a < pa + 4096 → t.mem a = 1 :=
  ⟨by decide, by decide, by rw [dec_ref_eq]; decide,
    kfree_returns_of_valid small small_owned 8192 (by decide),
    kalloc_fills_page small small_init (by decide)⟩

theorem ChainValid.kept_by_kalloc {L : Layout} {s : State} (h : ChainValid L s) :
    ChainValid L (kalloc L s).1 := by
  by_cases h0 : s.freelist = 0
  · rw [kalloc_null L s h0]
    exact h
  · obtain ⟨l, hc, hv⟩ := h
    cases l with
    | nil => exact absurd hc.1 h0
    | cons a t =>
      have e : s.freelist = a := hc.1.1
      rw [kalloc_page L s h0, e]
      exact ⟨t, hc.pop 5 _, fun b hb => hv b (List.mem_cons_of_mem _ hb)⟩

theorem ChainValid.kept_by_kfree {L : Layout} (hL : L.WF) {s t : State} {pa : Nat} {l : List Nat}
    (hc : FreeChain s l) (hv : ∀ a ∈ l, valid_page L a) (hnew : pa ∉ l)
    (hk : kfree L s pa = Outcome.done t) : ChainValid L t := by
  by_cases hval : valid_page L pa
  · by_cases hsh : 0 < wrap32 (s.ref_count (get_pa_idx L pa) - 1)
    · rw [kfree_shared L s pa hval hsh] at hk
      have e := Outcome.done_inj hk
      subst e
      exact ⟨l, hc.of_mem_eq rfl rfl, hv⟩
    · rw [kfree_frees L s pa hval (by omega)] at hk
      have e := Outcome.done_inj hk
      subst e
      refine ⟨pa :: l, hc.push 1 _ hval.1 (valid_page_pos hL hval) (valid_page_lt hL hval) hnew,
        ?_⟩
      intro b hb
      rcases List.mem_cons.mp hb with e | hmem
      · rw [e]; exact hval
      · exact hv b hmem
  · rw [kfree_invalid L s pa hval] at hk
    cases hk

theorem ChainValid.head_passes {L : Layout} {s : State} (h : ChainValid L s)
    (hne : s.freelist ≠ 0) : valid_page L s.freelist := by
  obtain ⟨l, hc, hv⟩ := h
  cases l with
  | nil => exact absurd hc.1 hne
  | cons a t =>
    have e : s.freelist = a := hc.1.1
    rw [e]
    exact hv a (List.mem_cons_self _ _)

theorem kalloc_result (L : Layout) (s : State) : (kalloc L s).2 = s.freelist := by
  simp [kalloc]

/-- C17, as the code has it: the predicate "the free list is a chain of
page-aligned addresses in `[end, PHYSTOP)`" holds after `kinit()` (which
returns when `PHYSTOP` is at least two pages below `2^64`), is kept by
every `kalloc()`, and is kept by every `kfree()` that returns and whose
address is not already on the chain; in every state with the predicate, and
so in every reachable state, a non-null address returned by `kalloc()`
passes the validation of `kfree`. -/
theorem chain_valid_preserved (L : Layout) (hL : L.WF) :
    (L.PHYSTOP + 2 * PGSIZE ≤ U64 →
        ∀ m, ∃ s, kinit L (boot m) = Outcome.done s ∧ ChainValid L s) ∧
      (∀ m s, kinit L (boot m) = Outcome.done s → ChainValid L s) ∧
      (∀ s, ChainValid L s → ChainValid L (kalloc L s).1) ∧
      (∀ s t pa l, FreeChain s l → (∀ a ∈ l, valid_page L a) → pa ∉ l →
        kfree L s pa = Outcome.done t → ChainValid L t) ∧
      (∀ s, ChainValid L s → (kalloc L s).2 ≠ 0 → valid_page L (kalloc L s).2) ∧
      (∀ s, Reachable L s → (kalloc L s).2 ≠ 0 → valid_page L (kalloc L s).2) := by
  have hdone : ∀ m s, kinit L (boot m) = Outcome.done s → ChainValid L s := by
    intro m s hk
    refine ⟨free_pages L, (kinit_done_spec L hL hk).1, ?_⟩
    intro a ha
    exact managed_page.valid ((mem_free_pages L hL a).mp ha)
  refine ⟨?_, hdone, fun s h => h.kept_by_kalloc, fun s t pa l hc hv hnew hk =>
    ChainValid.kept_by_kfree hL hc hv hnew hk, ?_, ?_⟩
  · intro hT m
    obtain ⟨s, hs, _⟩ := kinit_spec L hL hT m
    exact ⟨s, hs, hdone m s hs⟩
  · intro s h hne
    rw [kalloc_result] at hne ⊢
    exact h.head_passes hne
  · intro s hr hne
    rw [kalloc_result] at hne ⊢
    exact (hr.poolInv hL).head_valid hne

theorem chain_valid_preserved_witness :
    small.WF ∧ small.PHYSTOP + 2 * PGSIZE ≤ U64 ∧
      (small.PHYSTOP + 2 * PGSIZE ≤ U64 →
        ∀ m, ∃ s, kinit small (boot m) = Outcome.done s ∧ ChainValid small s) ∧
      (∀ m s, kinit small (boot m) = Outcome.done s → ChainValid small s) ∧
      (∀ s, ChainValid small s → ChainValid small (kalloc small s).1) ∧
      (∀ s t pa l, FreeChain s l → (∀ a ∈ l, valid_page small a) → pa ∉ l →
        kfree small s pa = Outcome.done t → ChainValid small t) ∧
      (∀ s, ChainValid small s → (kalloc small s).2 ≠ 0 → valid_page small (kalloc small s).2) ∧
      (∀ s, Reachable small s → (kalloc small s).2 ≠ 0 → valid_page small (kalloc small s).2) :=
  ⟨by decide, by decide, chain_valid_preserved small (by decide)⟩

theorem kfree_small_double : kfree small small_init 8192 = Outcome.done small_double_free :=
  kfree_last small small_init 8192 (by decide) (by decide) (by decide)

/-- After the second release the list of `small` cycles through its two
pages: a walk of any depth meets only `8192` and `12288`. -/
theorem walk_small_double_free :
    ∀ n, (∀ a ∈ walk small_double_free.mem n 8192, a = 8192 ∨ a = 12288) ∧
      ∀ a ∈ walk small_double_free.mem n 12288, a = 8192 ∨ a = 12288
  | 0 => by simp [walk]
  | n + 1 => by
    obtain ⟨h1, h2⟩ := walk_small_double_free n
    have e1 : loadPtr small_double_free.mem 8192 = 12288 := by decide
    have e2 : loadPtr small_double_free.mem 12288 = 8192 := by decide
    constructor
    · intro a ha
      simp only [walk, e1] at ha
      rcases List.mem_cons.mp ha with e | hm
      · exact Or.inl e
      · exact h2 a hm
    · intro a ha
      simp only [walk, e2] at ha
      rcases List.mem_cons.mp ha with e | hm
      · exact Or.inr e
      · exact h1 a hm

theorem no_chain_small_double_free : ¬ ∃ l, FreeChain small_double_free l := by
  rintro ⟨l, hc, _⟩
  have hnd := Chain.nodup _ _ hc
  have e1 : loadPtr small_double_free.mem 8192 = 12288 := by decide
  have e2 : loadPtr small_double_free.mem 12288 = 8192 := by decide
  match l, hc, hnd with
  | [], hc, _ => exact absurd hc (by decide)
  | [a], hc, _ =>
    obtain ⟨ha, _, h2⟩ := hc
    have ha2 : a = 8192 := ha.symm
    subst ha2
    rw [e1] at h2
    exact absurd h2 (by decide)
  | [a, b], hc, _ =>
    obtain ⟨ha, _, hb, _, h3⟩ := hc
    have ha2 : a = 8192 := ha.symm
    subst ha2
    rw [e1] at hb
    subst hb
    rw [e2] at h3
    exact absurd h3 (by decide)
  | a :: b :: c :: t, hc, hnd =>
    obtain ⟨ha, _, hb, _, hcc, _⟩ := hc
    have ha2 : a = 8192 := ha.symm
    subst ha2
    rw [e1] at hb
    subst hb
    rw [e2] at hcc
    subst hcc
    simp at hnd

/-- C17 fails as stated: on `small`, after `kinit()` the free list is the
chain `12288`, `8192` of valid pages; `kfree(8192)` does not panic and leaves
a list on which a walk of any depth meets only valid pages, but which is no
null-terminated chain any more; the `kalloc()` after it returns `8192` and
leaves the list `12288`, `8192`, `0x0505050505050505`, whose third address is
not page-aligned. -/
theorem chain_validity_lost_after_second_release :
    kinit small (boot fun _ => 0) = Outcome.done small_init ∧
      ChainValid small small_init ∧
      kfree small small_init 8192 = Outcome.done small_double_free ∧
      (∀ n, ∀ a ∈ walk small_double_free.mem n small_double_free.freelist, valid_page small a) ∧
      ¬ ChainValid small small_double_free ∧
      (kalloc small small_double_free).2 = 8192 ∧
      walk (kalloc small small_double_free).1.mem 3 (kalloc small small_double_free).1.freelist
        = [12288, 8192, FILL5_PTR] ∧
      ¬ valid_page small FILL5_PTR ∧
      ¬ ChainValid small (kalloc small small_double_free).1 := by
  have hw : walk (kalloc small small_double_free).1.mem 3
      (kalloc small small_double_free).1.freelist = [12288, 8192, FILL5_PTR] := by decide
  refine ⟨kinit_small, ⟨[12288, 8192], by decide, by decide⟩, kfree_small_double, ?_, ?_,
    by decide, hw, by decide, ?_⟩
  · intro n a ha
    rcases (walk_small_double_free n).1 a ha with e | e
    · rw [e]; decide
    · rw [e]; decide
  · rintro ⟨l, hc, _⟩
    exact no_chain_small_double_free ⟨l, hc⟩
  · rintro ⟨l, hc, hv⟩
    have hlen : l.length < 3 ∨ 3 ≤ l.length := by omega
    rcases hlen with hlt | hge
    · have := Chain.walk_eq l _ 3 hc.1 hlt
      rw [hw] at this
      rw [← this] at hlt
      simp at hlt
    · have h4 := Chain.walk_eq l _ (l.length + 1) hc.1 (by omega)
      have hmem : FILL5_PTR ∈ l := by
        match l, hc, hge with
        | a :: b :: c :: t, hc, _ =>
          obtain ⟨ha, _, hb, _, hcc, _⟩ := hc.1
          have e1 : (kalloc small small_double_free).1.freelist = 12288 := by decide
          have e2 : loadPtr (kalloc small small_double_free).1.mem 12288 = 8192 := by decide
          have e3 : loadPtr (kalloc small small_double_free).1.mem 8192 = FILL5_PTR := by decide
          have ha2 : a = 12288 := ha.symm.trans e1
          subst ha2
          rw [e2] at hb
          subst hb
          rw [e3] at hcc
          subst hcc
          simp
      exact absurd (hv _ hmem) (by decide)

/-- C18, as the code has it: for a valid address `pa` whose count is exactly
`1` and a free chain `l` that does not hold `pa`, `kfree(pa)` followed at once
by `kalloc()` returns `pa`, leaves the free chain equal to `l` with the same
head pointer, and leaves the table as it was: the count of `pa` is `1` and
every other slot is unchanged. -/
theorem kfree_kalloc_identity (L : Layout) (hL : L.WF) (s : State) (pa : Nat) (l : List Nat)
    (hv : valid_page L pa) (h1 : s.ref_count (get_pa_idx L pa) = 1)
    (hc : FreeChain s l) (hnew : pa ∉ l) :
    ∃ t, kfree L s pa = Outcome.done t ∧ (kalloc L t).2 = pa ∧
      FreeChain (kalloc L t).1 l ∧ (kalloc L t).1.freelist = s.freelist ∧
      (kalloc L t).1.ref_count (get_pa_idx L pa) = 1 ∧
      (∀ i, i ≠ get_pa_idx L pa → (kalloc L t).1.ref_count i = s.ref_count i) ∧
      (kalloc L t).1.ref_count = s.ref_count := by
  have hpush := hc.push 1 (Function.update s.ref_count (get_pa_idx L pa) 0) hv.1
    (valid_page_pos hL hv) (valid_page_lt hL hv) hnew
  have hpop := hpush.pop 5
    (Function.update (Function.update s.ref_count (get_pa_idx L pa) 0) (get_pa_idx L pa) 1)
  have hlink : loadPtr (storePtr (memset s.mem pa 1 PGSIZE) pa s.freelist) pa = s.freelist :=
    loadPtr_storePtr_same _ _ _ hc.head_lt
  refine ⟨_, kfree_last L s pa hv (by omega) (by omega), ?_⟩
  rw [kalloc_page L _ (Nat.pos_iff_ne_zero.mp (valid_page_pos hL hv))]
  refine ⟨rfl, hpop, hlink, Function.update_same _ _ _, ?_, ?_⟩
  · intro i hi
    show Function.update (Function.update s.ref_count (get_pa_idx L pa) 0)
      (get_pa_idx L pa) 1 i = s.ref_count i
    rw [Function.update_noteq hi, Function.update_noteq hi]
  · show Function.update (Function.update s.ref_count (get_pa_idx L pa) 0)
      (get_pa_idx L pa) 1 = s.ref_count
    rw [Function.update_idem, ← h1, Function.update_eq_self]

theorem kfree_kalloc_identity_witness :
    small.WF ∧ valid_page small 8192 ∧ small_owned.ref_count (get_pa_idx small 8192) = 1 ∧
      FreeChain small_owned [12288] ∧ 8192 ∉ [12288] ∧
      ∃ t, kfree small small_owned 8192 = Outcome.done t ∧ (kalloc small t).2 = 8192 ∧
        FreeChain (kalloc small t).1 [12288] ∧
        (kalloc small t).1.freelist = small_owned.freelist ∧
        (kalloc small t).1.ref_count (get_pa_idx small 8192) = 1 ∧
        (∀ i, i ≠ get_pa_idx small 8192 →
          (kalloc small t).1.ref_count i = small_owned.ref_count i) ∧
        (kalloc small t).1.ref_count = small_owned.ref_count :=
  ⟨by decide, by decide, by decide, by decide, by decide,
    kfree_kalloc_identity small (by decide) small_owned 8192 [12288]
      (by decide) (by decide) (by decide) (by decide)⟩

/-- C18 fails as stated: on `small`, `inc_ref(8192)` after `kinit()` gives a
state in which the valid address `8192` has count exactly `1` and the free
chain is `12288`, `8192`; there `kfree(8192)` followed by `kalloc()` returns
`8192` but does not leave the free chain `12288`, `8192`: the link of `8192`
has been overwritten by the fill pattern. -/
theorem lifo_fails_for_page_on_chain :
    (inc_ref small small_init 8192).1 = small_misused ∧
      valid_page small 8192 ∧ small_misused.ref_count (get_pa_idx small 8192) = 1 ∧
      FreeChain small_misused [12288, 8192] ∧
      ∃ t, kfree small small_misused 8192 = Outcome.done t ∧ (kalloc small t).2 = 8192 ∧
        ¬ FreeChain (kalloc small t).1 [12288, 8192] ∧
        loadPtr (kalloc small t).1.mem 8192 = FILL5_PTR := by
  refine ⟨?_, by decide, by decide, by decide, _,
    kfree_last small small_misused 8192 (by decide) (by decide) (by decide), by decide,
    by decide, by decide⟩
  rw [inc_ref_eq]
  rfl

/-! ## Calls in flight together -/

theorem cas_same (t : Nat → Int) (i : Nat) (v : Int) :
    cas t i (t i) v = (Function.update t i v, 0) := by
  simp [cas]

/-- What one atomic step of a call does: it keeps the kind of the call and
every other slot; it either leaves the table and the gain of the call alone,
or it is a successful `cas`, which adds the gain of the call to the slot; and
a call that has returned either had returned before or returns what its
`cas` stored. -/
theorem Call.step_spec (i : Nat) (t : Nat → Int) (c : Call) :
    (c.step i t).2.inc = c.inc ∧
      (∀ j, j ≠ i → (c.step i t).1 j = t j) ∧
      (((c.step i t).2.gain = c.gain ∧ (c.step i t).1 i = t i) ∨
        (c.step i t).1 i = wrap32 (t i + ((c.step i t).2.gain - c.gain))) ∧
      (∀ stored r, (c.step i t).2.phase = Phase.returned stored r →
        (c.step i t).2 = c ∨ r = stored) := by
  obtain ⟨inc, phase⟩ := c
  cases phase with
  | reading =>
    refine ⟨rfl, fun j _ => rfl, Or.inl ⟨rfl, rfl⟩, ?_⟩
    intro stored r h
    simp [Call.step] at h
  | swapping old =>
    by_cases h : t i = old
    · subst h
      have e : Call.step i t { inc := inc, phase := Phase.swapping (t i) }
          = (Function.update t i (Call.newval { inc := inc, phase := Phase.swapping (t i) } (t i)),
              { inc := inc,
                phase := Phase.returned
                  (Function.update t i
                    (Call.newval { inc := inc, phase := Phase.swapping (t i) } (t i)) i)
                  (Call.newval { inc := inc, phase := Phase.swapping (t i) } (t i)) }) := by
        simp [Call.step, cas]
      rw [e]
      refine ⟨rfl, fun j hj => Function.update_noteq hj _ _, Or.inr ?_, ?_⟩
      · show Function.update t i _ i = _
        rw [Function.update_same]
        cases inc
        · simp [Call.newval, Call.gain]
          rfl
        · simp [Call.newval, Call.gain]
      · intro stored r h
        right
        simp only [Function.update_same] at h
        injection h with h1 h2
        rw [← h1, ← h2]
    · have e : Call.step i t { inc := inc, phase := Phase.swapping old }
          = (t, { inc := inc, phase := Phase.reading }) := by
        simp [Call.step, cas, h]
      rw [e]
      refine ⟨rfl, fun j _ => rfl, Or.inl ⟨rfl, rfl⟩, ?_⟩
      intro stored r h
      cases h
  | returned stored r =>
    exact ⟨rfl, fun j _ => rfl, Or.inl ⟨rfl, rfl⟩, fun _ _ _ => Or.inl rfl⟩

/-- A step changes the table only if it is a successful `cas` of the call. -/
theorem Call.step_effect (i : Nat) (t : Nat → Int) (c : Call) :
    (c.step i t).1 = t ∨
      ∃ old, c.phase = Phase.swapping old ∧ t i = old ∧
        (c.step i t).1 = Function.update t i (c.newval old) ∧
        (c.step i t).2.phase = Phase.returned (c.newval old) (c.newval old) := by
  obtain ⟨inc, phase⟩ := c
  cases phase with
  | reading => exact Or.inl rfl
  | swapping old =>
    by_cases h : t i = old
    · right
      refine ⟨old, rfl, h, ?_, ?_⟩
      · simp [Call.step, cas, h]
      · simp [Call.step, cas, h]
    · left
      simp [Call.step, cas, h]
  | returned stored r => exact Or.inl rfl

theorem Interleave.preserves {i : Nat} :
    ∀ {x y : (Nat → Int) × List Call}, Interleave i x y →
      y.2.map Call.inc = x.2.map Call.inc ∧
      (∀ j, j ≠ i → y.1 j = x.1 j) ∧
      ((gain y.2 = gain x.2 ∧ y.1 i = x.1 i) ∨ y.1 i = wrap32 (x.1 i + (gain y.2 - gain x.2))) ∧
      (∀ c ∈ y.2, ∀ stored r, c.phase = Phase.returned stored r → c ∈ x.2 ∨ r = stored) := by
  intro x y h
  induction h with
  | head t c cs =>
    obtain ⟨h1, h2, h3, h4⟩ := Call.step_spec i t c
    refine ⟨by simp [h1], h2, ?_, ?_⟩
    · rcases h3 with ⟨e1, e2⟩ | e
      · left
        exact ⟨by simp only [gain, e1], e2⟩
      · right
        show (c.step i t).1 i = wrap32 (t i + (gain ((c.step i t).2 :: cs) - gain (c :: cs)))
        rw [e]
        simp only [gain]
        congr 1
        ring
    · intro d hd stored r hp
      rcases List.mem_cons.mp hd with e | hm
      · subst e
        rcases h4 stored r hp with e2 | e2
        · left
          rw [e2]
          exact List.mem_cons_self _ _
        · exact Or.inr e2
      · exact Or.inl (List.mem_cons_of_mem _ hm)
  | tail t u c cs ds _ ih =>
    obtain ⟨h1, h2, h3, h4⟩ := ih
    refine ⟨by simpa using h1, h2, ?_, ?_⟩
    · rcases h3 with ⟨e1, e2⟩ | e
      · left
        have e3 : gain ds = gain cs := e1
        exact ⟨by simp only [gain]; rw [e3], e2⟩
      · right
        show u i = wrap32 (t i + (gain (c :: ds) - gain (c :: cs)))
        have e2 : u i = wrap32 (t i + (gain ds - gain cs)) := e
        rw [e2]
        simp only [gain]
        congr 1
        ring
    · intro d hd stored r hp
      rcases List.mem_cons.mp hd with e | hm
      · left
        rw [e]
        exact List.mem_cons_self _ _
      · rcases h4 d hm stored r hp with h5 | h5
        · exact Or.inl (List.mem_cons_of_mem _ h5)
        · exact Or.inr h5

/-- What holds of every state of the machine: the calls are those that were
made, no other slot has changed, slot `i` holds its first value plus the gains
of the calls that have returned, wrapped to 32 bits, and every call that has
returned has returned what its `cas` stored. -/
theorem Runs.invariant {i : Nat} :
    ∀ {x y : (Nat → Int) × List Call}, Runs i x y →
      (INT_MIN ≤ x.1 i ∧ x.1 i ≤ INT_MAX) → gain x.2 = 0 →
      (∀ c ∈ x.2, ∀ stored r, c.phase = Phase.returned stored r → r = stored) →
      y.2.map Call.inc = x.2.map Call.inc ∧
      (∀ j, j ≠ i → y.1 j = x.1 j) ∧
      y.1 i = wrap32 (x.1 i + gain y.2) ∧
      (∀ c ∈ y.2, ∀ stored r, c.phase = Phase.returned stored r → r = stored) := by
  intro x y h
  induction h with
  | refl =>
    intro hr hg hx
    refine ⟨rfl, fun _ _ => rfl, ?_, hx⟩
    rw [hg, add_zero, wrap32_of_range hr.1 hr.2]
  | step y z _ hyz ih =>
    intro hr hg hx
    obtain ⟨h1, h2, h3, h4⟩ := ih hr hg hx
    obtain ⟨k1, k2, k3, k4⟩ := hyz.preserves
    refine ⟨k1.trans h1, fun j hj => (k2 j hj).trans (h2 j hj), ?_, ?_⟩
    · rcases k3 with ⟨e1, e2⟩ | e
      · rw [e2, e1, h3]
      · rw [e, h3, wrap32_add]
        congr 1
        ring
    · intro c hc stored r hp
      rcases k4 c hc stored r hp with h5 | h5
      · exact h4 c h5 stored r hp
      · exact h5

theorem gain_start (kinds : List Bool) : gain (kinds.map Call.start) = 0 := by
  induction kinds with
  | nil => rfl
  | cons k ks ih =>
    simp only [List.map, gain, ih]
    rfl

theorem inc_start (kinds : List Bool) : (kinds.map Call.start).map Call.inc = kinds := by
  induction kinds with
  | nil => rfl
  | cons k ks ih =>
    simp only [List.map] at ih ⊢
    rw [ih]
    rfl

/-- When every call has returned, the gains add up to the number of
`inc_ref` calls less the number of `dec_ref` calls. -/
theorem gain_finished :
    ∀ cs : List Call, (∀ c ∈ cs, c.finished) →
      gain cs = ((cs.map Call.inc).count true : Int) - ((cs.map Call.inc).count false : Int)
  | [], _ => by simp [gain]
  | c :: cs, h => by
    have ih := gain_finished cs (fun d hd => h d (List.mem_cons_of_mem _ hd))
    have hc := h c (List.mem_cons_self _ _)
    obtain ⟨inc, phase⟩ := c
    cases phase with
    | reading => exact absurd hc (by simp [Call.finished])
    | swapping old => exact absurd hc (by simp [Call.finished])
    | returned stored r =>
      cases inc
      · simp only [gain, Call.gain, List.map, ih]
        simp
        ring
      · simp only [gain, Call.gain, List.map, ih]
        simp
        ring

/-- A run of some of the calls is a run of the machine with one more call
that stands still. -/
theorem Runs.under {i : Nat} (c : Call) :
    ∀ {x y : (Nat → Int) × List Call}, Runs i x y → Runs i (x.1, c :: x.2) (y.1, c :: y.2) := by
  intro x y h
  induction h with
  | refl => exact Runs.refl _
  | step y z _ hyz ih =>
    exact Runs.step _ _ _ ih (Interleave.tail y.1 z.1 c y.2 z.2 hyz)

/-- The calls can always all return: one after the other, each call reads
the slot and its `cas` succeeds at once. -/
theorem Runs.all_return (i : Nat) (t0 : Nat → Int) :
    ∀ kinds : List Bool, ∃ t cs, Runs i (t0, kinds.map Call.start) (t, cs) ∧
      ∀ c ∈ cs, c.finished
  | [] => ⟨t0, [], Runs.refl _, by simp⟩
  | k :: ks => by
    obtain ⟨t, cs, hr, hf⟩ := Runs.all_return i t0 ks
    have h1 : Runs i (t0, (k :: ks).map Call.start) (t, Call.start k :: cs) := hr.under _
    have h2 : Interleave i (t, Call.start k :: cs)
        (t, { inc := k, phase := Phase.swapping (t i) } :: cs) :=
      Interleave.head t (Call.start k) cs
    have h3 := Interleave.head (i := i) t { inc := k, phase := Phase.swapping (t i) } cs
    refine ⟨_, _, Runs.step _ _ _ (Runs.step _ _ _ h1 h2) h3, ?_⟩
    intro c hc
    rcases List.mem_cons.mp hc with e | hm
    · rw [e]
      simp [Call.step, cas, Call.finished]
    · exact hf c hm

/-- A call of `inc_ref` that runs alone takes two steps, the read and a `cas`
that succeeds, and leaves the table and the result of `inc_ref`. -/
theorem Call.alone_inc_ref (L : Layout) (s : State) (pa : Nat) :
    (((Call.start true).step (get_pa_idx L pa) s.ref_count).2.step (get_pa_idx L pa)
        ((Call.start true).step (get_pa_idx L pa) s.ref_count).1).1
      = (inc_ref L s pa).1.ref_count ∧
    (((Call.start true).step (get_pa_idx L pa) s.ref_count).2.step (get_pa_idx L pa)
        ((Call.start true).step (get_pa_idx L pa) s.ref_count).1).2.phase
      = Phase.returned ((inc_ref L s pa).1.ref_count (get_pa_idx L pa)) (inc_ref L s pa).2 := by
  rw [inc_ref_eq]
  simp [Call.step, Call.start, cas, Call.newval]

/-- A call of `dec_ref` that runs alone takes two steps, the read and a `cas`
that succeeds, and leaves the table and the result of `dec_ref`. -/
theorem Call.alone_dec_ref (L : Layout) (s : State) (pa : Nat) :
    (((Call.start false).step (get_pa_idx L pa) s.ref_count).2.step (get_pa_idx L pa)
        ((Call.start false).step (get_pa_idx L pa) s.ref_count).1).1
      = (dec_ref L s pa).1.ref_count ∧
    (((Call.start false).step (get_pa_idx L pa) s.ref_count).2.step (get_pa_idx L pa)
        ((Call.start false).step (get_pa_idx L pa) s.ref_count).1).2.phase
      = Phase.returned ((dec_ref L s pa).1.ref_count (get_pa_idx L pa)) (dec_ref L s pa).2 := by
  rw [dec_ref_eq]
  simp [Call.step, Call.start, cas, Call.newval]

/-- C12, as the code has it: any number of calls of `inc_ref` and `dec_ref`
on the same slot, their reads and their `cas` steps interleaved in any order.
A step changes the table only when it is a successful `cas`, which stores the
new value of that call and lets it return; the calls can always all return;
and in every state of every run no other slot has changed, every call that
has returned has returned the value its own successful `cas` stored, and the
slot holds its first value plus `1` for each `inc_ref` and `-1` for each
`dec_ref` that has returned, wrapped to 32 bits. So when all calls have
returned, `k` of them `inc_ref` and `m` of them `dec_ref`, the count has
changed by `k - m` modulo `2^32`, and by exactly `k - m` when the count that
`k - m` leads to is an `int`. -/
theorem inc_dec_ref_linearizable (i : Nat) (kinds : List Bool) (t0 : Nat → Int)
    (h0 : INT_MIN ≤ t0 i ∧ t0 i ≤ INT_MAX) :
    (∀ (u : Nat → Int) (c : Call), (c.step i u).1 = u ∨
        ∃ old, c.phase = Phase.swapping old ∧ u i = old ∧
          (c.step i u).1 = Function.update u i (c.newval old) ∧
          (c.step i u).2.phase = Phase.returned (c.newval old) (c.newval old)) ∧
      (∃ t cs, Runs i (t0, kinds.map Call.start) (t, cs) ∧ ∀ c ∈ cs, c.finished) ∧
      ∀ t cs, Runs i (t0, kinds.map Call.start) (t, cs) →
        cs.map Call.inc = kinds ∧
        (∀ j, j ≠ i → t j = t0 j) ∧
        (∀ c ∈ cs, ∀ stored r, c.phase = Phase.returned stored r → r = stored) ∧
        t i = wrap32 (t0 i + gain cs) ∧
        ((∀ c ∈ cs, c.finished) →
          t i = wrap32 (t0 i + ((kinds.count true : Int) - (kinds.count false : Int))) ∧
          (INT_MIN ≤ t0 i + ((kinds.count true : Int) - (kinds.count false : Int)) →
            t0 i + ((kinds.count true : Int) - (kinds.count false : Int)) ≤ INT_MAX →
            t i - t0 i = (kinds.count true : Int) - (kinds.count false : Int))) := by
  refine ⟨fun u c => Call.step_effect i u c, Runs.all_return i t0 kinds, ?_⟩
  intro t cs hrun
  obtain ⟨h1, h2, h3, h4⟩ := hrun.invariant h0 (gain_start kinds)
    (by
      intro c hc stored r hp
      obtain ⟨k, _, e⟩ := List.mem_map.mp hc
      rw [← e] at hp
      cases hp)
  have h1b : cs.map Call.inc = kinds := h1.trans (inc_start kinds)
  refine ⟨h1b, h2, h4, h3, ?_⟩
  intro hfin
  have hg := gain_finished cs hfin
  rw [h1b] at hg
  have h5 : t i = wrap32 (t0 i + ((kinds.count true : Int) - (kinds.count false : Int))) := by
    rw [← hg]
    exact h3
  refine ⟨h5, ?_⟩
  intro hlo hhi
  rw [h5, wrap32_of_range hlo hhi]
  ring

theorem inc_dec_ref_linearizable_witness :
    (INT_MIN ≤ (fun _ => 0 : Nat → Int) 0 ∧ (fun _ => 0 : Nat → Int) 0 ≤ INT_MAX) ∧
      (∀ (u : Nat → Int) (c : Call), (c.step 0 u).1 = u ∨
        ∃ old, c.phase = Phase.swapping old ∧ u 0 = old ∧
          (c.step 0 u).1 = Function.update u 0 (c.newval old) ∧
          (c.step 0 u).2.phase = Phase.returned (c.newval old) (c.newval old)) ∧
      (∃ t cs, Runs 0 (fun _ => 0, [true, false, true].map Call.start) (t, cs) ∧
        ∀ c ∈ cs, c.finished) ∧
      ∀ t cs, Runs 0 (fun _ => 0, [true, false, true].map Call.start) (t, cs) →
        cs.map Call.inc = [true, false, true] ∧
        (∀ j, j ≠ 0 → t j = (fun _ => 0 : Nat → Int) j) ∧
        (∀ c ∈ cs, ∀ stored r, c.phase = Phase.returned stored r → r = stored) ∧
        t 0 = wrap32 ((fun _ => 0 : Nat → Int) 0 + gain cs) ∧
        ((∀ c ∈ cs, c.finished) →
          t 0 = wrap32 ((fun _ => 0 : Nat → Int) 0 +
            (([true, false, true].count true : Int) - ([true, false, true].count false : Int))) ∧
          (INT_MIN ≤ (fun _ => 0 : Nat → Int) 0 +
              (([true, false, true].count true : Int) - ([true, false, true].count false : Int)) →
            (fun _ => 0 : Nat → Int) 0 +
              (([true, false, true].count true : Int) - ([true, false, true].count false : Int))
                ≤ INT_MAX →
            t 0 - (fun _ => 0 : Nat → Int) 0
              = ([true, false, true].count true : Int) - ([true, false, true].count false : Int))) :=
  ⟨by decide, inc_dec_ref_linearizable 0 [true, false, true] (fun _ => 0) (by decide)⟩

/-- C12 fails as stated: two calls of `inc_ref` on a slot that holds
`2147483646`. Both read the slot; the `cas` of the first succeeds and stores
`2147483647`; the `cas` of the second fails, so it reads again and its second
`cas` stores `2147483647 + 1` wrapped to 32 bits. Both calls have returned,
`k = 2` and `m = 0`, and the count has changed by `-4294967294`, not by
`2`. -/
theorem concurrent_count_overflows :
    ∃ t cs, Runs 0 (fun _ => 2147483646, [true, true].map Call.start) (t, cs) ∧
      (∀ c ∈ cs, c.finished) ∧
      cs.map Call.phase = [Phase.returned 2147483647 2147483647,
        Phase.returned (-2147483648) (-2147483648)] ∧
      t 0 = -2147483648 ∧
      t 0 - 2147483646 = -4294967294 ∧
      t 0 - 2147483646 ≠ (([true, true].count true : Nat) : Int) - ([true, true].count false : Nat) := by
  have r0 := Runs.refl (i := 0) ((fun _ => 2147483646 : Nat → Int), [true, true].map Call.start)
  have r1 := Runs.step _ _ _ r0 (Interleave.head _ _ _)
  have r2 := Runs.step _ _ _ r1 (Interleave.tail _ _ _ _ _ (Interleave.head _ _ _))
  have r3 := Runs.step _ _ _ r2 (Interleave.head _ _ _)
  have r4 := Runs.step _ _ _ r3 (Interleave.tail _ _ _ _ _ (Interleave.head _ _ _))
  have r5 := Runs.step _ _ _ r4 (Interleave.tail _ _ _ _ _ (Interleave.head _ _ _))
  have r6 := Runs.step _ _ _ r5 (Interleave.tail _ _ _ _ _ (Interleave.head _ _ _))
  refine ⟨_, _, r6, ?_, ?_, ?_, ?_, ?_⟩
  · simp [Call.step, Call.start, cas, Call.newval, wrap32, Call.finished]
  · simp [Call.step, Call.start, cas, Call.newval, wrap32]
  · simp [Call.step, Call.start, cas, Call.newval, wrap32]
  · simp [Call.step, Call.start, cas, Call.newval, wrap32]
  · simp [Call.step, Call.start, cas, Call.newval, wrap32]

end Kalloc
